import Mathlib

/-!
Verification of the scratchpad editor's execution engine, result formatter,
register store, python-runtime initialization, and text formatter
(`src/execution/*.js`, the register module, and the text-formatter module)
against their natural-language specification.

The JavaScript sources are shallowly embedded: pure functions become Lean
functions on `List Char` / `String`, JavaScript exceptions become
`Except`/`Option` results, and the stateful pieces (the register file, the
lazily-initialized python runtime) are modelled as explicit state passing.
Host builtins (`JSON.parse`, `JSON.stringify`, `String.prototype.trim`,
number-to-string conversions) are modelled where noted; everything else is
translated line by line from the source.
-/

namespace Scratchpad

/-! ## Whitespace predicates

The JavaScript regular-expression class `\s` (used by `/\s+$/` in
`formatClean`, `/\s{2,}/` in `detectDelimiter`, and `String.prototype.trim`)
matches the characters below. -/

/-- Characters matched by the JavaScript regex class `\s` (and trimmed by
`String.prototype.trim`). -/
def isJsSpaceChar (c : Char) : Bool :=
  c = ' ' || c = '\t' || c = '\n' || c = '\r' || c = '\x0b' || c = '\x0c' ||
  c = '\u00A0' || c = '\u1680' ||
  ('\u2000' ≤ c && c ≤ '\u200A') ||
  c = '\u2028' || c = '\u2029' || c = '\u202F' || c = '\u205F' ||
  c = '\u3000' || c = '\uFEFF'

/-- Model of the host `String.prototype.trim`: drop `\s` characters from both
ends. -/
def jsTrimL (cs : List Char) : List Char :=
  ((cs.dropWhile isJsSpaceChar).reverse.dropWhile isJsSpaceChar).reverse

/-- Model of the host `String.prototype.trim` on `String`. -/
def jsTrim (s : String) : String := String.mk (jsTrimL s.data)

/-! ## The whitespace-clean formatter (`formatClean`)

Source: the text-formatter module.  `formatClean` splits on `/\r?\n/`, strips
trailing whitespace from each line with `/\s+$/`, pops trailing empty lines,
and joins with `"\n"`. -/

/-- Helper for `splitLinesRN`: extend the current (first) segment with a
character. -/
def prependChar (c : Char) : List (List Char) → List (List Char)
  | [] => [[c]]
  | l :: ls => (c :: l) :: ls

/-- Model of `text.split(/\r?\n/)`: split on `"\r\n"` or `"\n"`.  Like the
host `split`, the result is never empty and keeps empty segments. -/
def splitLinesRN : List Char → List (List Char)
  | [] => [[]]
  | '\r' :: '\n' :: rest => [] :: splitLinesRN rest
  | '\n' :: rest => [] :: splitLinesRN rest
  | c :: rest => prependChar c (splitLinesRN rest)

/-- Model of `line.replace(/\s+$/, "")`: remove trailing `\s` characters. -/
def rstripLine (l : List Char) : List Char :=
  (l.reverse.dropWhile isJsSpaceChar).reverse

/-- Model of the `while`-loop that pops trailing empty lines. -/
def dropTrailingBlank (ls : List (List Char)) : List (List Char) :=
  (ls.reverse.dropWhile (· = [])).reverse

/-- Model of `lines.join("\n")`. -/
def joinLF : List (List Char) → List Char
  | [] => []
  | [l] => l
  | l :: ls => l ++ '\n' :: joinLF ls

/-- `formatClean` from the text-formatter module: normalize whitespace.
The `if (!text) return text` guard returns the (only falsy) empty string
unchanged. -/
def formatClean (text : String) : String :=
  if text = "" then text
  else String.mk (joinLF (dropTrailingBlank ((splitLinesRN text.data).map rstripLine)))

/-! ## Tabular delimiter detection (`detectDelimiter`)

Source: the text-formatter module; `FORMAT_PATTERNS.CSV_DELIMITERS` is
`[",", "\t", "|", ";"]` and `FORMAT_PATTERNS.MULTI_SPACE_REGEX` is
`/\s\x7b2,\x7d/` (a run of two or more whitespace characters). -/

/-- Model of `(firstLine.match(new RegExp("\\" + d, "g")) || []).length`:
the number of occurrences of the delimiter character in the line. -/
def countChar (c : Char) (s : String) : Nat := s.data.count c

/-- Possible results of `detectDelimiter`: one of the four one-character
delimiters, or the multi-space-run regex used as a fallback splitter. -/
inductive DetectedDelim where
  | tab | pipe | semi | comma | multiSpace
deriving DecidableEq, Repr

/-- A line matches `/\s\x7b2,\x7d/` iff it contains two consecutive
whitespace characters. -/
def hasMultiSpaceRun : List Char → Bool
  | a :: b :: t => (isJsSpaceChar a && isJsSpaceChar b) || hasMultiSpaceRun (b :: t)
  | _ => false

/-- `detectDelimiter` from the text-formatter module, translated
condition-for-condition from its `if`-chain. -/
def detectDelimiter (firstLine : String) : DetectedDelim :=
  let commas := countChar ',' firstLine
  let tabs := countChar '\t' firstLine
  let pipes := countChar '|' firstLine
  let semis := countChar ';' firstLine
  if tabs > 0 ∧ tabs ≥ commas then .tab
  else if pipes > 0 ∧ pipes ≥ commas then .pipe
  else if semis > 0 ∧ semis ≥ commas then .semi
  else if commas > 0 then .comma
  else if hasMultiSpaceRun firstLine.data then .multiSpace
  else .comma

/-- Following the specification text of claim C6, for comparison with
`detectDelimiter`: choose the most frequent non-comma delimiter whenever its
count meets or exceeds the comma count; otherwise comma; otherwise the
multi-space pattern.  Ties between equally frequent non-comma delimiters are
broken in the order tab, pipe, semicolon (the counterexample below has
pairwise distinct counts, so its verdict does not depend on the tie-break). -/
def specDetectDelimiter (firstLine : String) : DetectedDelim :=
  let commas := countChar ',' firstLine
  let tabs := countChar '\t' firstLine
  let pipes := countChar '|' firstLine
  let semis := countChar ';' firstLine
  let best := max tabs (max pipes semis)
  if best > 0 ∧ best ≥ commas then
    (if tabs = best then .tab else if pipes = best then .pipe else .semi)
  else if commas > 0 then .comma
  else .multiSpace

/-! ## Python executor initialization (`PythonExecutor.initializePyodide`)

Source: `src/execution/python.js`.  The executor holds `pyodide` (the loaded
runtime, initially `null`), `isLoading`, and `loadPromise`.  JavaScript's
run-to-completion semantics make the synchronous prefix of
`initializePyodide` — the `pyodide` check, the `isLoading` check, setting
`isLoading = true`, storing `loadPromise`, and starting `_loadPyodide()` — one
atomic step; control can only interleave at `await`.  `initPyodideStep` is
that atomic step; `loadCount` counts how many `_loadPyodide` invocations have
been started, and doubles as a source of fresh promise identities. -/

/-- State of the lazily-initialized python runtime, plus a counter of started
loads (the "load-count counter" the specification's test sketch observes). -/
structure PyLoadState where
  pyodide : Option Nat
  isLoading : Bool
  loadPromise : Option Nat
  loadCount : Nat
deriving DecidableEq, Repr

/-- What one call to `initializePyodide` does up to its first suspension:
return the already-loaded runtime, or suspend awaiting a load promise. -/
inductive InitCallResult where
  | resolved (v : Nat)
  | awaiting (p : Nat)
deriving DecidableEq, Repr

/-- The atomic synchronous prefix of `initializePyodide`: if `this.pyodide`
is set, return it; if `this.isLoading`, await the stored `this.loadPromise`;
otherwise set `isLoading`, start a fresh `_loadPyodide()` (incrementing the
load count) and await it. -/
def initPyodideStep (s : PyLoadState) : PyLoadState × InitCallResult :=
  match s.pyodide with
  | some v => (s, .resolved v)
  | none =>
    if s.isLoading then (s, .awaiting (s.loadPromise.getD 0))
    else
      ({ pyodide := none, isLoading := true, loadPromise := some s.loadCount,
         loadCount := s.loadCount + 1 }, .awaiting s.loadCount)

/-- Resolution of the in-flight load with runtime `v`: the initiator's
`this.pyodide = await this.loadPromise` assignment and its `finally` clause
resetting `isLoading`; every caller awaiting the promise receives `v`. -/
def loadResolveStep (s : PyLoadState) (v : Nat) : PyLoadState :=
  { s with pyodide := some v, isLoading := false }

/-! ## Result formatter (`src/execution/formatters.js`)

`formatResult` maps an arbitrary execution-result value to a display string.
JavaScript values are embedded as `JsValue`; numbers as `JsNum` (NaN, signed
infinity, or a finite value modelled as an exact rational — the host's
IEEE-754 doubles are a subset of these).  The host conversions
`Number.prototype.toString`, `toExponential`, `toPrecision` and
`JSON.stringify` are modelled below; a `JSON.stringify` result of `none`
models the host call throwing (`BigInt` serialization, cyclic or otherwise
non-serializable objects — the latter embedded as the `exoticObj`
constructor, carrying `constructor.name`). -/

/-- Decimal digit characters of a natural number, most significant first
(modelled host conversion helper). -/
def natChars (n : Nat) : List Char :=
  if n < 10 then [Char.ofNat ('0'.toNat + n % 10)]
  else natChars (n / 10) ++ [Char.ofNat ('0'.toNat + n % 10)]
termination_by n
decreasing_by exact Nat.div_lt_self (by omega) (by omega)

/-- Decimal characters of an integer: optional minus sign, then digits. -/
def intChars (i : Int) : List Char :=
  (if i < 0 then ['-'] else []) ++ natChars i.natAbs

/-- Up to `k` fractional decimal digits of `rem / den`, stopping when the
remainder reaches zero. -/
def fracDigitChars (k rem den : Nat) : List Char :=
  match k with
  | 0 => []
  | k + 1 =>
    if rem = 0 then []
    else Char.ofNat ('0'.toNat + (rem * 10) / den) :: fracDigitChars k ((rem * 10) % den) den

/-- Modelled host builtin `Number.prototype.toString` on a finite value:
sign, integer part, and fractional digits (capped at 20; the host's doubles
always have finite expansions). -/
def finiteToChars (q : ℚ) : List Char :=
  let n := q.num.natAbs
  let d := q.den
  let sign : List Char := if q < 0 then ['-'] else []
  let frac := fracDigitChars 20 (n % d) d
  sign ++ natChars (n / d) ++ (if frac = [] then [] else '.' :: frac)

/-- Modelled host `Number.prototype.toString` as a `String`. -/
def numToString (q : ℚ) : String := String.mk (finiteToChars q)

/-- Smallest exponent `j` (searched with fuel) with `n * 10 ^ j ≥ d`. -/
def smallExpAux : Nat → Nat → Nat → Nat → Nat
  | 0, j, _, _ => j
  | fuel + 1, j, n, d => if n * 10 ^ j ≥ d then j else smallExpAux fuel (j + 1) n d

/-- The decimal exponent of a nonzero rational: the `e` with
`10 ^ e ≤ |q| < 10 ^ (e + 1)`. -/
def decExponent (q : ℚ) : Int :=
  let n := q.num.natAbs
  let d := q.den
  if n ≥ d then (Nat.log 10 (n / d) : Int)
  else -(smallExpAux (Nat.log 10 d + 2) 1 n d : Int)

/-- Modelled host builtin `Number.prototype.toExponential()`. -/
def numToExponential (q : ℚ) : String :=
  if q = 0 then "0e+0"
  else
    let e := decExponent q
    let mant := |q| / (10 : ℚ) ^ e
    String.mk ((if q < 0 then ['-'] else []) ++ finiteToChars mant ++
      ('e' :: (if e < 0 then '-' else '+') :: natChars e.natAbs))

/-- Modelled host builtin `Number.prototype.toPrecision(12)` (the source
calls it only for values between `1e-4` and `1e10`, where the host uses
fixed notation; trailing zeros are dropped by the model). -/
def numToPrecision12 (q : ℚ) : String :=
  if q = 0 then "0.00000000000"
  else
    let e := decExponent q
    let p : Int := 11 - e
    let scaled : ℚ := |q| * (10 : ℚ) ^ p
    let m : Nat := (scaled + 1 / 2).floor.toNat
    let v : ℚ := (m : ℚ) / (10 : ℚ) ^ p
    String.mk ((if q < 0 then ['-'] else []) ++ finiteToChars v)

/-- A JavaScript number for the formatter: NaN, a signed infinity, or a
finite value. -/
inductive JsNum where
  | nan
  | inf (pos : Bool)
  | finite (q : ℚ)
deriving DecidableEq, Repr

/-- Shallow embedding of the JavaScript values `formatResult` dispatches on:
primitives, functions (carrying their source text), dates (carrying their
ISO string), errors, arrays, plain objects, and `exoticObj` for host objects
whose JSON serialization throws (e.g. cyclic structures). -/
inductive JsValue where
  | undef
  | jsNull
  | bool (b : Bool)
  | num (n : JsNum)
  | str (s : String)
  | bigint (i : Int)
  | sym (descr : String)
  | func (src : String)
  | date (iso : String)
  | err (msg : String)
  | arr (elems : List JsValue)
  | obj (fields : List (String × JsValue))
  | exoticObj (ctorName : String)

/-- Lower-case hexadecimal digit. -/
def hexDigitChar (n : Nat) : Char :=
  if n < 10 then Char.ofNat ('0'.toNat + n) else Char.ofNat ('a'.toNat + (n - 10))

/-- JSON string escaping of one character, as `JSON.stringify` performs it. -/
def escapeJsonChar (c : Char) : List Char :=
  if c = '"' then ['\\', '"']
  else if c = '\\' then ['\\', '\\']
  else if c = '\n' then ['\\', 'n']
  else if c = '\r' then ['\\', 'r']
  else if c = '\t' then ['\\', 't']
  else if c = '\x08' then ['\\', 'b']
  else if c = '\x0c' then ['\\', 'f']
  else if c.toNat < 32 then
    ['\\', 'u', '0', '0', hexDigitChar (c.toNat / 16), hexDigitChar (c.toNat % 16)]
  else [c]

/-- A string rendered as a quoted, escaped JSON string literal. -/
def quoteChars (s : String) : List Char :=
  '"' :: (s.data.flatMap escapeJsonChar ++ ['"'])

/-- Modelled host `JSON.stringify` on a string value. -/
def jsonQuote (s : String) : String := String.mk (quoteChars s)

/-- An indentation run of spaces. -/
def spacesChars (n : Nat) : List Char := List.replicate n ' '

/-- JSON serialization of a number (`NaN` and infinities serialize as
`null`). -/
def jsonNumChars : JsNum → List Char
  | .nan => ['n', 'u', 'l', 'l']
  | .inf _ => ['n', 'u', 'l', 'l']
  | .finite q => finiteToChars q

/-- Object fields whose values `JSON.stringify` omits. -/
def isSkippedInObj : JsValue → Bool
  | .undef | .func _ | .sym _ => true
  | _ => false

/-- Remaining pretty-printed items, each preceded by a comma, newline and
indentation. -/
def joinPrettyTail (ind : Nat) (rs : List (List Char)) : List Char :=
  rs.flatMap (fun r => ',' :: '\n' :: (spacesChars ind ++ r))

/-! Modelled host builtin `JSON.stringify(value, null, 2)`: `jsValueChars`
returns `none` where the host throws, together with its element/field
workers.  Dates serialize via `toJSON` as quoted ISO strings, `Error` objects
have no enumerable properties and serialize as `\x7b\x7d`, object fields with
`undefined`/function/symbol values are omitted, and array elements of those
types serialize as `null`. -/
mutual
def jsValueChars (ind : Nat) : JsValue → Option (List Char)
  | .jsNull => some ['n', 'u', 'l', 'l']
  | .bool b => some (if b then ['t', 'r', 'u', 'e'] else ['f', 'a', 'l', 's', 'e'])
  | .num n => some (jsonNumChars n)
  | .str s => some (quoteChars s)
  | .date iso => some (quoteChars iso)
  | .err _ => some ['\x7b', '\x7d']
  | .bigint _ => none
  | .exoticObj _ => none
  | .undef => none
  | .func _ => none
  | .sym _ => none
  | .arr es => do
    let items ← jsArrItems (ind + 2) es
    match items with
    | [] => pure ['[', ']']
    | r0 :: rs =>
      pure ('[' :: '\n' :: (spacesChars (ind + 2) ++ r0 ++ joinPrettyTail (ind + 2) rs ++
        '\n' :: spacesChars ind ++ [']']))
  | .obj fs => do
    let rendered ← jsObjFields (ind + 2) fs
    match rendered with
    | [] => pure ['\x7b', '\x7d']
    | r0 :: rs =>
      pure ('\x7b' :: '\n' :: (spacesChars (ind + 2) ++ r0 ++ joinPrettyTail (ind + 2) rs ++
        '\n' :: spacesChars ind ++ ['\x7d']))
termination_by v => (sizeOf v, 0)

def jsArrElem (ind : Nat) : JsValue → Option (List Char)
  | .undef | .func _ | .sym _ => some ['n', 'u', 'l', 'l']
  | v => jsValueChars ind v
termination_by v => (sizeOf v, 1)

def jsArrItems (ind : Nat) : List JsValue → Option (List (List Char))
  | [] => some []
  | e :: es => do
    let hd ← jsArrElem ind e
    let tl ← jsArrItems ind es
    pure (hd :: tl)
termination_by l => (sizeOf l, 2)

def jsObjFields (ind : Nat) : List (String × JsValue) → Option (List (List Char))
  | [] => some []
  | (k, v) :: fs =>
    if isSkippedInObj v then jsObjFields ind fs
    else do
      let vc ← jsValueChars ind v
      let rest ← jsObjFields ind fs
      pure ((quoteChars k ++ ':' :: ' ' :: vc) :: rest)
termination_by l => (sizeOf l, 2)
end

/-- Model of matching the regex of `formatFunction`,
`^(async\s+)?function\s*([^(]*)\s*\([^)]*\)`, against the function source:
the `async` capture (with its trailing whitespace, or empty) and the name
capture (everything between `function\s*` and the first parenthesis). -/
def matchFnHead (cs : List Char) : Option (String × String) :=
  let stage2 : List Char × List Char :=
    match cs with
    | 'a' :: 's' :: 'y' :: 'n' :: 'c' :: rest =>
      let ws := rest.takeWhile isJsSpaceChar
      if ws = [] then ([], cs)
      else ('a' :: 's' :: 'y' :: 'n' :: 'c' :: ws, rest.dropWhile isJsSpaceChar)
    | _ => ([], cs)
  match stage2.2 with
  | 'f' :: 'u' :: 'n' :: 'c' :: 't' :: 'i' :: 'o' :: 'n' :: rest =>
    let rest1 := rest.dropWhile isJsSpaceChar
    let name := rest1.takeWhile (· ≠ '(')
    match rest1.dropWhile (· ≠ '(') with
    | '(' :: rest3 =>
      match rest3.dropWhile (· ≠ ')') with
      | ')' :: _ => some (String.mk stage2.1, String.mk name)
      | _ => none
    | _ => none
  | _ => none

/-- Model of matching the arrow regex of `formatFunction`,
`^(async\s*)?\([^)]*\)\s*=>`: the `async` capture or empty. -/
def matchArrowHead (cs : List Char) : Option String :=
  let stage2 : List Char × List Char :=
    match cs with
    | 'a' :: 's' :: 'y' :: 'n' :: 'c' :: rest =>
      ('a' :: 's' :: 'y' :: 'n' :: 'c' :: rest.takeWhile isJsSpaceChar,
        rest.dropWhile isJsSpaceChar)
    | _ => ([], cs)
  match stage2.2 with
  | '(' :: rest =>
    match rest.dropWhile (· ≠ ')') with
    | ')' :: rest2 =>
      match rest2.dropWhile isJsSpaceChar with
      | '=' :: '>' :: _ => some (String.mk stage2.1)
      | _ => none
    | _ => none
  | _ => none

/-- `formatFunction` from `formatters.js`: short single-line sources verbatim;
otherwise a synthesized signature summary; fallback `"[Function]"`. -/
def formatFunction (fnSrc : String) : String :=
  if fnSrc.length < 100 ∧ ¬ fnSrc.contains '\n' then fnSrc
  else
    match matchFnHead fnSrc.data with
    | some (asyncPart, name) =>
      asyncPart ++ "function " ++ (if name = "" then "<anonymous>" else name) ++
        "() \x7b ... \x7d"
    | none =>
      match matchArrowHead fnSrc.data with
      | some arrowAsync =>
        if fnSrc.length < 50 then fnSrc else arrowAsync ++ "(...) => \x7b ... \x7d"
      | none => "[Function]"

/-- `formatString` from `formatters.js`: verbatim unless the string contains a
newline, tab or double quote, in which case a quoted escaped literal. -/
def formatString (s : String) : String :=
  if s.contains '\n' || s.contains '\t' || s.contains '"' then jsonQuote s else s

/-- `formatNumber` from `formatters.js`: `NaN`/infinities literally; very
large or small magnitudes in exponential notation; non-integers whose decimal
expansion exceeds 10 fractional digits rounded to 12 significant digits;
everything else in natural decimal form. -/
def formatNumber (n : JsNum) : String :=
  match n with
  | .nan => "NaN"
  | .inf pos => if pos then "Infinity" else "-Infinity"
  | .finite q =>
    if (10000000000 : ℚ) < |q| ∨ (|q| < 1 / 10000 ∧ q ≠ 0) then numToExponential q
    else if q.den ≠ 1 then
      let str := finiteToChars q
      let fracPart := str.dropWhile (· ≠ '.')
      if fracPart.length > 11 then numToPrecision12 q else numToString q
    else numToString q

/-- The `typeof item !== "object" || item === null` test of `formatArray`. -/
def isSimpleArrayItem : JsValue → Bool
  | .arr _ | .obj _ | .date _ | .err _ | .exoticObj _ => false
  | _ => true

/-- Modelled single-line `JSON.stringify` of one simple array element
(`undefined`, functions and symbols serialize as `null` inside arrays;
`BigInt` throws). -/
def stringifyInlineElem : JsValue → Option (List Char)
  | .undef | .func _ | .sym _ => some ['n', 'u', 'l', 'l']
  | .jsNull => some ['n', 'u', 'l', 'l']
  | .bool b => some (if b then ['t', 'r', 'u', 'e'] else ['f', 'a', 'l', 's', 'e'])
  | .num n => some (jsonNumChars n)
  | .str s => some (quoteChars s)
  | .bigint _ => none
  | _ => none

/-- Serialize all elements for the inline array form. -/
def mapInlineElems : List JsValue → Option (List (List Char))
  | [] => some []
  | v :: vs => do
    let h ← stringifyInlineElem v
    let t ← mapInlineElems vs
    pure (h :: t)

/-- Comma-join without spaces, as single-line `JSON.stringify` does. -/
def joinCommas : List (List Char) → List Char
  | [] => []
  | r :: rest => r ++ rest.flatMap (fun x => ',' :: x)

/-- `formatArray` from `formatters.js`: `[]` for empty; a single-line form for
at most five simple elements; otherwise the 2-space-indented form. -/
def formatArray (es : List JsValue) : Option String :=
  if es.isEmpty then some "[]"
  else if es.length ≤ 5 ∧ es.all isSimpleArrayItem then
    (mapInlineElems es).map (fun rs => String.mk ('[' :: (joinCommas rs ++ [']'])))
  else
    (jsValueChars 0 (.arr es)).map String.mk

/-- Model of `obj.constructor?.name || "Object"` in the fallback branch. -/
def jsCtorName : JsValue → String
  | .exoticObj n => if n = "" then "Object" else n
  | .arr _ => "Array"
  | .obj _ => "Object"
  | .date _ => "Date"
  | .err _ => "Error"
  | _ => "Object"

/-- The body of `formatObject`'s `try` block: arrays via `formatArray`, dates
as their ISO string, errors as `"Error: <message>"`, and other objects via
`JSON.stringify(obj, null, 2)`; `none` models the serialization throwing. -/
def formatObjectTry : JsValue → Option String
  | .arr es => formatArray es
  | .date iso => some iso
  | .err m => some ("Error: " ++ m)
  | v => (jsValueChars 0 v).map String.mk

/-- `formatObject` from `formatters.js`: the `try` body, with the `catch`
returning a bracketed type-name placeholder. -/
def formatObject (v : JsValue) : String :=
  match formatObjectTry v with
  | some s => s
  | none => "[Object " ++ jsCtorName v ++ "]"

/-- `formatResult` from `formatters.js`: the top-level dispatch, branch for
branch in source order (`undefined`, `null`, functions, objects, strings,
numbers, booleans, bigints, symbols). -/
def formatResult : JsValue → String
  | .undef => "undefined"
  | .jsNull => "null"
  | .func src => formatFunction src
  | .arr es => formatObject (.arr es)
  | .obj fs => formatObject (.obj fs)
  | .date iso => formatObject (.date iso)
  | .err m => formatObject (.err m)
  | .exoticObj n => formatObject (.exoticObj n)
  | .str s => formatString s
  | .num n => formatNumber n
  | .bool b => toString b
  | .bigint i => String.mk (intChars i) ++ "n"
  | .sym d => "Symbol(" ++ d ++ ")"

/-- `formatResult` with the `try`/`catch` of `formatObject` removed: `none`
exactly where the underlying `JSON.stringify` would throw.  Used to state
that the real `formatResult` is total and only ever diverges from the raw
serialization by producing the bracketed placeholder. -/
def formatResultRaw : JsValue → Option String
  | .undef => some "undefined"
  | .jsNull => some "null"
  | .func src => some (formatFunction src)
  | .arr es => formatObjectTry (.arr es)
  | .obj fs => formatObjectTry (.obj fs)
  | .date iso => formatObjectTry (.date iso)
  | .err m => formatObjectTry (.err m)
  | .exoticObj n => formatObjectTry (.exoticObj n)
  | .str s => some (formatString s)
  | .num n => some (formatNumber n)
  | .bool b => some (toString b)
  | .bigint i => some (String.mk (intChars i) ++ "n")
  | .sym d => some ("Symbol(" ++ d ++ ")")


/-! ## Register store and the Execution Engine

Sources: the register-management module (`storeResult`, results register
`"r"`) and `src/execution/engine.js` (`ExecutionEngine`).  The vim register
controller is embedded as an association list `RegFile`; the
`pushText(registerName, "char", resultString, false, false)` call of
`storeResult` replaces the register's content.  Executor instances are
embedded as `ExecutorInstance` (class `kind` plus an allocation identity
`instanceId`, one fresh identity per `new` expression in the constructor),
so that object-identity claims are expressible.  An `execute` call's
interaction with its environment -- what `executor.execute(code)` returns or
throws, and whether the register write throws -- is a `CallBehavior`. -/


/-- Modelled host `toLowerCase` on one character (ASCII; the language
names involved are ASCII). -/
def lowerChar (c : Char) : Char :=
  if 'A' ≤ c && c ≤ 'Z' then Char.ofNat (c.toNat + 32) else c

/-- Modelled host builtin `String.prototype.toLowerCase`. -/
def jsToLower (s : String) : String := String.mk (s.data.map lowerChar)

/-- `RESULTS_REGISTER` from the register-management module. -/
def RESULTS_REGISTER : String := "r"

/-- The vim register controller state: register names to contents. -/
abbrev RegFile := List (String × String)

/-- Write a register (update in place, or create it). -/
def setReg : RegFile → String → String → RegFile
  | [], k, v => [(k, v)]
  | (k', v') :: rest, k, v =>
    if k' = k then (k, v) :: rest else (k', v') :: setReg rest k v

/-- Read a register. -/
def getReg : RegFile → String → Option String
  | [], _ => none
  | (k', v') :: rest, k => if k' = k then some v' else getReg rest k

/-- `storeResult` from the register-management module: push the formatted
result string into the named register (the engine passes the results
register). -/
def storeResult (regs : RegFile) (resultString registerName : String) : RegFile :=
  setReg regs registerName resultString

/-- The executor classes the constructor registers. -/
inductive ExecutorKind where
  | javascript
  | python
deriving DecidableEq, Repr

/-- One executor object: its class and its allocation identity (each `new`
in the source allocates a distinct instance). -/
structure ExecutorInstance where
  kind : ExecutorKind
  instanceId : Nat
deriving DecidableEq, Repr

/-- The `getDisplayName()` result of each executor class. -/
def getDisplayName : ExecutorKind → String
  | .javascript => "JavaScript"
  | .python => "Python"

/-- The engine's `Map` from language keys to executor instances. -/
abbrev ExecutorMap := List (String × ExecutorInstance)

/-- `Map.prototype.set`: update in place or append (insertion order kept). -/
def mapSet : ExecutorMap → String → ExecutorInstance → ExecutorMap
  | [], k, v => [(k, v)]
  | (k', v') :: rest, k, v =>
    if k' = k then (k, v) :: rest else (k', v') :: mapSet rest k v

/-- `Map.prototype.get`. -/
def mapGet : ExecutorMap → String → Option ExecutorInstance
  | [], _ => none
  | (k', v') :: rest, k => if k' = k then some v' else mapGet rest k

/-- The `ExecutionEngine` state: the executor registry and the default
language. -/
structure EngineModel where
  executors : ExecutorMap
  defaultLanguage : String
deriving DecidableEq, Repr

/-- `registerExecutor(language, executor)`: case-folds the key. -/
def registerExecutor (eng : EngineModel) (language : String) (e : ExecutorInstance) :
    EngineModel :=
  { eng with executors := mapSet eng.executors (jsToLower language) e }

/-- `setDefaultLanguage(language)`: throws `UNSUPPORTED_LANGUAGE` when the
case-folded name is not registered. -/
def setDefaultLanguage (eng : EngineModel) (language : String) :
    Except String EngineModel :=
  if (mapGet eng.executors (jsToLower language)).isSome then
    .ok { eng with defaultLanguage := (jsToLower language) }
  else .error ("Unsupported language: " ++ language)

/-- The `ExecutionEngine` constructor: registers `javascript`, `js`,
`python`, `py` -- each with a fresh instance -- then sets the default
language to `DEFAULTS.EXECUTION_LANGUAGE` (that is, `javascript`; it is
registered, so `setDefaultLanguage` succeeds and the `.error` arm is
unreachable). -/
def engineInit : EngineModel :=
  let e1 := registerExecutor { executors := [], defaultLanguage := "" }
    "javascript" ⟨.javascript, 0⟩
  let e2 := registerExecutor e1 "js" ⟨.javascript, 1⟩
  let e3 := registerExecutor e2 "python" ⟨.python, 2⟩
  let e4 := registerExecutor e3 "py" ⟨.python, 3⟩
  match setDefaultLanguage e4 "javascript" with
  | .ok e => e
  | .error _ => e4

/-- The structured result `execute` returns; fields absent in the source's
object literals are `none` here (`rawResult` and `executor` on failure,
`error` on success). -/
structure Outcome where
  success : Bool
  rawResult : Option JsValue
  formattedResult : String
  language : String
  executorKey : Option String
  error : Option String

/-- The environment one `execute` call runs in: what `executor.execute(code)`
does (`.ok raw`, or `.error m` when it throws `m`), and whether the register
write in `storeResult` itself throws (`some m`) or succeeds (`none`). -/
structure CallBehavior where
  execResult : Except String JsValue
  storeFault : Option String

/-- The executor key: `language?.toLowerCase() || this.defaultLanguage`
(an empty string is falsy, so it falls back to the default). -/
def resolveKey (eng : EngineModel) (language : Option String) : String :=
  match language with
  | some s => if jsToLower s = "" then eng.defaultLanguage else jsToLower s
  | none => eng.defaultLanguage

/-- The `language || this.defaultLanguage` value used in the failure
outcome (original casing; empty string falls back). -/
def languageOrDefault (eng : EngineModel) (language : Option String) : String :=
  match language with
  | some s => if s = "" then eng.defaultLanguage else s
  | none => eng.defaultLanguage

/-- The `language || "default"` value passed to `UNSUPPORTED_LANGUAGE`. -/
def unsupportedArg (language : Option String) : String :=
  match language with
  | some s => if s = "" then "default" else s
  | none => "default"

/-- The outcome built in the `catch` block of `execute`: success `false`,
the error message, the language, and `formattedResult` equal to
`"Error: " ++ message`. -/
def failedOutcome (eng : EngineModel) (language : Option String) (msg : String) :
    Outcome :=
  { success := false, rawResult := none, formattedResult := "Error: " ++ msg,
    language := languageOrDefault eng language, executorKey := none,
    error := some msg }

/-- `ExecutionEngine.execute`, as a state transformer on the register file:
resolve the executor (throwing `UNSUPPORTED_LANGUAGE` when absent), run it,
format the raw result, store it in the results register, and return the
success outcome; any thrown error is caught and converted to a failed
outcome, leaving the registers untouched. -/
def executeCall (eng : EngineModel) (language : Option String) (beh : CallBehavior)
    (regs : RegFile) : RegFile × Outcome :=
  match mapGet eng.executors (resolveKey eng language) with
  | none =>
    (regs, failedOutcome eng language ("Unsupported language: " ++ unsupportedArg language))
  | some ex =>
    match beh.execResult with
    | .error m => (regs, failedOutcome eng language m)
    | .ok raw =>
      let formatted := formatResult raw
      match beh.storeFault with
      | some m => (regs, failedOutcome eng language m)
      | none =>
        (storeResult regs formatted RESULTS_REGISTER,
          { success := true, rawResult := some raw, formattedResult := formatted,
            language := getDisplayName ex.kind,
            executorKey := some (resolveKey eng language), error := none })

/-- A sequence of `execute` calls threaded through the register file. -/
def runCalls (eng : EngineModel) :
    List (Option String × CallBehavior) → RegFile → RegFile × List Outcome
  | [], regs => (regs, [])
  | (lang, beh) :: rest, regs =>
    let step := executeCall eng lang beh regs
    let next := runCalls eng rest step.1
    (next.1, step.2 :: next.2)

/-- The formatted result of the most recent successful outcome in a list,
if any. -/
def lastSuccessFmt : List Outcome → Option String
  | [] => none
  | o :: os =>
    match lastSuccessFmt os with
    | some f => some f
    | none => if o.success then some o.formattedResult else none



/-! ## The structured-data formatter (`formatJSON`)

Source: the text-formatter module (`formatJSON`, `sortObjectKeys`) together
with the host builtins it uses (`JSON.parse`, `JSON.stringify(·, null, 4)`,
`Array.prototype.sort` on keys), modelled on the integer-numbered fragment of
JSON.  `deepEqual`, `nodupAll` and `keysSortedAll` are the comparison and
invariant predicates claim C4 is stated with. -/

/-- Values of the JSON data model handled by the structured-data formatter
(`formatJSON`).  Numbers are restricted to integers in this embedding: the
modelled `JSON.parse` accepts only optionally-signed digit runs, which is the
fragment on which the modelled `JSON.stringify` below agrees with the host
number formatting. -/
inductive JsonValue where
  | null
  | bool (b : Bool)
  | num (i : Int)
  | str (s : String)
  | arr (elems : List JsonValue)
  | obj (fields : List (String × JsonValue))

/-- JSON insignificant whitespace, as `JSON.parse` skips it. -/
def isJsonWs (c : Char) : Bool :=
  c = ' ' || c = '\t' || c = '\n' || c = '\r'

/-- Skip insignificant whitespace. -/
def skipJsonWs (cs : List Char) : List Char := cs.dropWhile isJsonWs

/-- Numeric value of a run of decimal digits. -/
def digitsToNat (ds : List Char) : Nat :=
  ds.foldl (fun a c => a * 10 + (c.toNat - '0'.toNat)) 0

/-- Parse a JSON number (integer fragment): an optional minus sign followed
by a nonempty digit run. -/
def parseJsonNum (cs : List Char) : Option (JsonValue × List Char) :=
  match cs with
  | '-' :: r =>
    let ds := r.takeWhile Char.isDigit
    if ds = [] then none
    else some (.num (-(digitsToNat ds : Int)), r.dropWhile Char.isDigit)
  | _ =>
    let ds := cs.takeWhile Char.isDigit
    if ds = [] then none
    else some (.num (digitsToNat ds : Int), cs.dropWhile Char.isDigit)

/-- Value of one hexadecimal digit of a `\uXXXX` escape. -/
def hexValDigit (c : Char) : Option Nat :=
  let n := c.toNat
  if 48 ≤ n ∧ n ≤ 57 then some (n - 48)
  else if 97 ≤ n ∧ n ≤ 102 then some (n - 87)
  else if 65 ≤ n ∧ n ≤ 70 then some (n - 55)
  else none

/-- The two-character JSON string escapes accepted by `JSON.parse`. -/
def shortEscape (c : Char) : Option Char :=
  if c = '"' then some '"'
  else if c = '\\' then some '\\'
  else if c = '/' then some '/'
  else if c = 'n' then some '\n'
  else if c = 'r' then some '\r'
  else if c = 't' then some '\t'
  else if c = 'b' then some '\x08'
  else if c = 'f' then some '\x0c'
  else none

/-- Parse the remainder of a JSON string literal after the opening quote,
accumulating the decoded characters (reversed) in `acc`; control characters
below U+0020 are rejected, as `JSON.parse` rejects them. -/
def parseStringRest (acc : List Char) : List Char → Option (String × List Char)
  | '"' :: rest => some (String.mk acc.reverse, rest)
  | '\\' :: 'u' :: h1 :: h2 :: h3 :: h4 :: rest =>
    (match hexValDigit h1, hexValDigit h2, hexValDigit h3, hexValDigit h4 with
     | some a, some b, some c, some d =>
       parseStringRest (Char.ofNat (((a * 16 + b) * 16 + c) * 16 + d) :: acc) rest
     | _, _, _, _ => none)
  | '\\' :: e :: rest =>
    (match shortEscape e with
     | some c => parseStringRest (c :: acc) rest
     | none => none)
  | c :: rest =>
    if c.toNat < 32 then none else parseStringRest (c :: acc) rest
  | [] => none

/-- Insert a key into an object under construction the way JavaScript
property assignment does on duplicate keys: an existing key keeps its
position but receives the new value; a fresh key is appended. -/
def objInsert (fields : List (String × JsonValue)) (k : String) (v : JsonValue) :
    List (String × JsonValue) :=
  match fields with
  | [] => [(k, v)]
  | (k', v') :: rest => if k' = k then (k, v) :: rest else (k', v') :: objInsert rest k v

/-- Build the property list of a parsed object from the member list in
source order, collapsing duplicate keys like `JSON.parse` (first position,
last value). -/
def buildObj (pairs : List (String × JsonValue)) : List (String × JsonValue) :=
  pairs.foldl (fun acc kv => objInsert acc kv.1 kv.2) []

mutual
/-- Modelled host `JSON.parse`, value grammar (fuel-indexed recursion; the
callers pass more fuel than the input length, so fuel never runs out on
reachable inputs).  Returns the value and the unconsumed remainder. -/
def parseJsonVal : Nat → List Char → Option (JsonValue × List Char)
  | 0, _ => none
  | fuel + 1, cs =>
    match skipJsonWs cs with
    | 'n' :: 'u' :: 'l' :: 'l' :: r => some (.null, r)
    | 't' :: 'r' :: 'u' :: 'e' :: r => some (.bool true, r)
    | 'f' :: 'a' :: 'l' :: 's' :: 'e' :: r => some (.bool false, r)
    | '"' :: r => (parseStringRest [] r).map (fun p => (.str p.1, p.2))
    | '[' :: r =>
      (match skipJsonWs r with
       | ']' :: r2 => some (.arr [], r2)
       | r2 => (parseJsonElems fuel r2).map (fun p => (.arr p.1, p.2)))
    | '\x7b' :: r =>
      (match skipJsonWs r with
       | '\x7d' :: r2 => some (.obj [], r2)
       | r2 => (parseJsonMembers fuel r2).map (fun p => (.obj (buildObj p.1), p.2)))
    | c :: r => if c = '-' || c.isDigit then parseJsonNum (c :: r) else none
    | [] => none
termination_by fuel _ => fuel

/-- Modelled `JSON.parse`, array elements after `[` (nonempty case). -/
def parseJsonElems : Nat → List Char → Option (List JsonValue × List Char)
  | 0, _ => none
  | fuel + 1, cs => do
    let (v, r) ← parseJsonVal fuel cs
    match skipJsonWs r with
    | ',' :: r2 => do
      let (vs, r3) ← parseJsonElems fuel r2
      pure (v :: vs, r3)
    | ']' :: r2 => pure ([v], r2)
    | _ => none
termination_by fuel _ => fuel

/-- Modelled `JSON.parse`, object members after the opening brace
(nonempty case). -/
def parseJsonMembers : Nat → List Char → Option (List (String × JsonValue) × List Char)
  | 0, _ => none
  | fuel + 1, cs =>
    match skipJsonWs cs with
    | '"' :: r => do
      let (k, r1) ← parseStringRest [] r
      match skipJsonWs r1 with
      | ':' :: r2 => do
        let (v, r3) ← parseJsonVal fuel r2
        match skipJsonWs r3 with
        | ',' :: r4 => do
          let (ms, r5) ← parseJsonMembers fuel r4
          pure ((k, v) :: ms, r5)
        | '\x7d' :: r4 => pure ([(k, v)], r4)
        | _ => none
      | _ => none
    | _ => none
termination_by fuel _ => fuel
end

/-- Modelled host `JSON.parse` on a string: parse one value and require the
remainder to be whitespace; `none` models the host call throwing. -/
def jsonParse (s : String) : Option JsonValue :=
  match parseJsonVal (s.data.length + 1) s.data with
  | some (v, r) => if skipJsonWs r = [] then some v else none
  | none => none

mutual
/-- Modelled host `JSON.stringify(value, null, 4)` at indentation `ind`
(the pretty-printed serialization `formatJSON` returns). -/
def renderJson (ind : Nat) : JsonValue → List Char
  | .null => ['n', 'u', 'l', 'l']
  | .bool b => if b then ['t', 'r', 'u', 'e'] else ['f', 'a', 'l', 's', 'e']
  | .num i => intChars i
  | .str s => quoteChars s
  | .arr [] => ['[', ']']
  | .arr (e :: es) =>
    '[' :: '\n' :: (spacesChars (ind + 4) ++ renderJson (ind + 4) e ++
      renderArrTail (ind + 4) es ++ '\n' :: (spacesChars ind ++ [']']))
  | .obj [] => ['\x7b', '\x7d']
  | .obj ((k, v) :: fs) =>
    '\x7b' :: '\n' :: (spacesChars (ind + 4) ++ quoteChars k ++ ':' :: ' ' ::
      (renderJson (ind + 4) v ++ renderObjTail (ind + 4) fs ++
        '\n' :: (spacesChars ind ++ ['\x7d'])))
termination_by v => sizeOf v

/-- Remaining array elements, each preceded by a comma, newline and
indentation. -/
def renderArrTail (ind : Nat) : List JsonValue → List Char
  | [] => []
  | e :: es =>
    ',' :: '\n' :: (spacesChars ind ++ renderJson ind e ++ renderArrTail ind es)
termination_by l => sizeOf l

/-- Remaining object members, each preceded by a comma, newline and
indentation. -/
def renderObjTail (ind : Nat) : List (String × JsonValue) → List Char
  | [] => []
  | (k, v) :: fs =>
    ',' :: '\n' :: (spacesChars ind ++ quoteChars k ++ ':' :: ' ' ::
      (renderJson ind v ++ renderObjTail ind fs))
termination_by l => sizeOf l
end


/-- Comparison by key used for `Object.keys(obj).sort()`: the host sort
compares keys as strings. -/
def keyLe (a b : String × JsonValue) : Prop := a.1 ≤ b.1

instance : DecidableRel keyLe := fun a b => inferInstanceAs (Decidable (a.1 ≤ b.1))

instance : IsTotal (String × JsonValue) keyLe := ⟨fun a b => le_total a.1 b.1⟩

instance : IsTrans (String × JsonValue) keyLe := ⟨fun _ _ _ h1 h2 => le_trans h1 h2⟩

mutual
/-- `sortObjectKeys` from the text-formatter module: recursively sort all
object keys (arrays keep their order but their elements are sorted
recursively); insertion sort is a stable model of the host sort. -/
def sortObjectKeys : JsonValue → JsonValue
  | .arr l => .arr (sortArrElems l)
  | .obj fs => .obj (List.insertionSort keyLe (sortFieldVals fs))
  | v => v
termination_by v => sizeOf v

def sortArrElems : List JsonValue → List JsonValue
  | [] => []
  | v :: vs => sortObjectKeys v :: sortArrElems vs
termination_by l => sizeOf l

def sortFieldVals : List (String × JsonValue) → List (String × JsonValue)
  | [] => []
  | (k, v) :: fs => (k, sortObjectKeys v) :: sortFieldVals fs
termination_by l => sizeOf l
end

/-- First value stored under a key, as property lookup returns it. -/
def lookupField (k : String) : List (String × JsonValue) → Option JsonValue
  | [] => none
  | (k', v) :: fs => if k' = k then some v else lookupField k fs

mutual
/-- Structural deep equality of JSON values, with objects compared as
finite maps: equal sizes and every key of one present in the other with a
deep-equal value (so key order is irrelevant, as for JavaScript deep-equality
of parsed JSON). -/
def deepEqual : JsonValue → JsonValue → Bool
  | .null, .null => true
  | .bool a, .bool b => a == b
  | .num a, .num b => a == b
  | .str a, .str b => a == b
  | .arr a, .arr b => deepEqualList a b
  | .obj a, .obj b => a.length == b.length && deepEqualFields b a
  | _, _ => false
termination_by v _ => sizeOf v

def deepEqualList : List JsonValue → List JsonValue → Bool
  | [], [] => true
  | a :: as, b :: bs => deepEqual a b && deepEqualList as bs
  | _, _ => false
termination_by l _ => sizeOf l

def deepEqualFields (b : List (String × JsonValue)) :
    List (String × JsonValue) → Bool
  | [] => true
  | (k, v) :: fs =>
    (match lookupField k b with
     | some w => deepEqual v w
     | none => false) && deepEqualFields b fs
termination_by l => sizeOf l
end

/-- Key lists without duplicates. -/
def noDupKeysList (l : List String) : Bool := decide l.Nodup

/-- Key lists in ascending lexical order. -/
def keysAscList (l : List String) : Bool := decide (List.Pairwise (· ≤ ·) l)

mutual
/-- Every object at every nesting depth has pairwise distinct keys (an
invariant of every `JSON.parse` result, established below). -/
def nodupAll : JsonValue → Bool
  | .arr l => nodupAllList l
  | .obj fs => noDupKeysList (fs.map Prod.fst) && nodupAllFields fs
  | _ => true
termination_by v => sizeOf v

def nodupAllList : List JsonValue → Bool
  | [] => true
  | v :: vs => nodupAll v && nodupAllList vs
termination_by l => sizeOf l

def nodupAllFields : List (String × JsonValue) → Bool
  | [] => true
  | (_, v) :: fs => nodupAll v && nodupAllFields fs
termination_by l => sizeOf l
end

mutual
/-- Every object at every nesting depth has its keys in ascending lexical
order — the output property claim C4 makes about `formatJSON`. -/
def keysSortedAll : JsonValue → Bool
  | .arr l => keysSortedAllList l
  | .obj fs => keysAscList (fs.map Prod.fst) && keysSortedAllFields fs
  | _ => true
termination_by v => sizeOf v

def keysSortedAllList : List JsonValue → Bool
  | [] => true
  | v :: vs => keysSortedAll v && keysSortedAllList vs
termination_by l => sizeOf l

def keysSortedAllFields : List (String × JsonValue) → Bool
  | [] => true
  | (_, v) :: fs => keysSortedAll v && keysSortedAllFields fs
termination_by l => sizeOf l
end

/-- `formatJSON` from the text-formatter module: trim, reject empty input,
parse, recursively sort object keys, re-serialize with 4-space indentation;
`Except.error` models the function throwing (the host parse error text is
summarized by one representative message). -/
def formatJSON (jsonText : String) : Except String String :=
  let t := jsTrim jsonText
  if t.data = [] then Except.error "No text to format"
  else
    match jsonParse t with
    | some parsed => Except.ok (String.mk (renderJson 0 (sortObjectKeys parsed)))
    | none => Except.error "Invalid JSON: unexpected token"


/-- Lists that do not start with a decimal digit: appending such a
remainder after a rendered number does not change how far the number parser
reads. -/
def headNotDigit : List Char → Bool
  | [] => true
  | c :: _ => !c.isDigit


/-! ## The formatting dispatcher (`formatText`) and the tabular formatter

Source: the text-formatter module (`formatTable`, `detectFormat`,
`formatText`); `splitOnChar` and `splitMultiSpace` model
`String.prototype.split` with the delimiters `detectDelimiter` returns. -/

/-- Model of `line.split(delimiter)` for a one-character delimiter: keeps
empty segments, result never empty. -/
def splitOnChar (d : Char) : List Char → List (List Char)
  | [] => [[]]
  | c :: rest => if c = d then [] :: splitOnChar d rest else prependChar c (splitOnChar d rest)

/-- Model of `line.split(/\s\x7b2,\x7d/)`: split on each maximal run of
two or more whitespace characters (single whitespace characters stay in
their segment). -/
def splitMultiSpace : List Char → List (List Char)
  | [] => [[]]
  | a :: rest =>
    match rest with
    | b :: t =>
      if isJsSpaceChar a ∧ isJsSpaceChar b then
        [] :: splitMultiSpace (t.dropWhile isJsSpaceChar)
      else prependChar a (splitMultiSpace (b :: t))
    | [] => prependChar a (splitMultiSpace [])
termination_by cs => cs.length
decreasing_by
  · simp only [List.length_cons]
    exact Nat.lt_succ_of_le (Nat.le_succ_of_le (List.IsSuffix.length_le (List.dropWhile_suffix _)))
  · simp
  · simp

/-- Split one line by the detected delimiter. -/
def splitByDelim : DetectedDelim → List Char → List (List Char)
  | .tab, l => splitOnChar '\t' l
  | .pipe, l => splitOnChar '|' l
  | .semi, l => splitOnChar ';' l
  | .comma, l => splitOnChar ',' l
  | .multiSpace, l => splitMultiSpace l

/-- Model of `String.prototype.padEnd`: pad with spaces to width `w`
(longer cells are left unchanged). -/
def padEndChars (cell : List Char) (w : Nat) : List Char :=
  cell ++ List.replicate (w - cell.length) ' '

/-- Model of `Array.prototype.join` with a separator. -/
def joinSep (sep : List Char) : List (List Char) → List Char
  | [] => []
  | [x] => x
  | x :: xs => x ++ sep ++ joinSep sep xs

/-- One table row: `"| "` plus the padded cells joined by `" | "` plus
`" |"`. -/
def tableRowLine (widths : List Nat) (row : List (List Char)) : List Char :=
  '|' :: ' ' :: (joinSep [' ', '|', ' '] (List.zipWith padEndChars row widths) ++ [' ', '|'])

/-- The header separator: `"|"` plus a dash run of width `w + 2` per
column, joined and closed by `"|"`. -/
def tableSepLine (widths : List Nat) : List Char :=
  '|' :: (joinSep ['|'] (widths.map (fun w => List.replicate (w + 2) '-')) ++ ['|'])

/-- `formatTable` from the text-formatter module: trim and split into
lines, detect the delimiter on the first line, split and trim cells, pad all
rows to the widest row, compute column widths (content width, at least
`HELP.MIN_TABLE_COLUMN_WIDTH = 3`), and build the pipe-bordered table;
`Except.error` models the function throwing on empty input. -/
def formatTable (text : String) : Except String String :=
  if text = "" ∨ (jsTrim text).data = [] then Except.error "No text to format as table"
  else
    match splitLinesRN (jsTrim text).data with
    | [] => Except.error "No data to format as table"
    | l0 :: ls =>
      let delimiter := detectDelimiter (String.mk l0)
      let rows := (l0 :: ls).map (fun line => (splitByDelim delimiter line).map jsTrimL)
      let maxColumns := rows.foldl (fun m r => max m r.length) 0
      let rows2 := rows.map (fun r => r ++ List.replicate (maxColumns - r.length) [])
      let columnWidths := (List.range maxColumns).map (fun col =>
        max (rows2.foldl (fun m row => max m (row.getD col []).length) 0) 3)
      match rows2 with
      | [] => Except.ok (String.mk (joinLF []))
      | header :: dataRows =>
        Except.ok (String.mk (joinLF
          (tableRowLine columnWidths header :: tableSepLine columnWidths ::
            dataRows.map (tableRowLine columnWidths))))

/-- `detectFormat` from the text-formatter module: after trimming, text
that starts with one of `FORMAT_PATTERNS.JSON.START_PATTERNS` and ends with
one of `END_PATTERNS` and parses as JSON is `"json"`; everything else is
`"unknown"`. -/
def detectFormat (text : String) : String :=
  let t := jsTrim text
  if (t.data.head? = some '\x7b' ∨ t.data.head? = some '[') ∧
      (t.data.getLast? = some '\x7d' ∨ t.data.getLast? = some ']') then
    match jsonParse t with
    | some _ => "json"
    | none => "unknown"
  else "unknown"

/-- The object `formatText` returns: the formatted text and the detected
format. -/
structure FormatTextResult where
  text : String
  format : String

/-- `formatText` from the text-formatter module: resolve `"auto"` through
`detectFormat`, then dispatch on the lower-cased detected format, echoing the
detected format string verbatim in the result; the `default:` branch
`throw` is modelled as `Except.error` with
`ERROR_MESSAGES.UNSUPPORTED_FORMAT`. -/
def formatText (text : String) (formatType : String) : Except String FormatTextResult :=
  let detectedFormat := if formatType = "auto" then detectFormat text else formatType
  if jsToLower detectedFormat = "json" then
    (formatJSON text).map (fun t => FormatTextResult.mk t detectedFormat)
  else if jsToLower detectedFormat = "clean" then
    Except.ok (FormatTextResult.mk (formatClean text) detectedFormat)
  else if jsToLower detectedFormat = "table" then
    (formatTable text).map (fun t => FormatTextResult.mk t detectedFormat)
  else
    Except.error ("Unsupported format type: " ++ detectedFormat ++
      ". Currently supported: 'json', 'clean', 'table'.")


/-! ## Theorems: lemmas towards idempotence of `formatClean` (C5) -/

theorem splitLinesRN_cons (c : Char) (rest : List Char) (hc : c ≠ '\n')
    (hcr : c = '\r' → rest.head? ≠ some '\n') :
    splitLinesRN (c :: rest) = prependChar c (splitLinesRN rest) := by
  rw [splitLinesRN.eq_def]
  split
  · rename_i h; exact absurd h (by simp)
  · rename_i r h
    rw [List.cons_eq_cons] at h
    have hh := hcr h.1
    rw [h.2] at hh
    simp at hh
  · rename_i r h
    rw [List.cons_eq_cons] at h
    exact absurd h.1 hc
  · rename_i c1 r1 hx1 hx2 h
    rw [List.cons_eq_cons] at h
    rw [h.1, h.2]

theorem splitLinesRN_ne_nil (cs : List Char) : splitLinesRN cs ≠ [] := by
  induction cs using splitLinesRN.induct with
  | case1 => simp [splitLinesRN]
  | case2 rest ih => simp [splitLinesRN]
  | case3 rest ih => simp [splitLinesRN]
  | case4 c rest h1 h2 ih =>
    have hc : c ≠ '\n' := fun e => h2 e
    have hcr : c = '\r' → rest.head? ≠ some '\n' := by
      intro e hh
      cases rest with
      | nil => simp at hh
      | cons d t =>
        simp at hh
        exact h1 t e (by rw [hh])
    rw [splitLinesRN_cons c rest hc hcr]
    cases splitLinesRN rest <;> simp [prependChar]

theorem rstripLine_eq_rdropWhile (l : List Char) :
    rstripLine l = List.rdropWhile isJsSpaceChar l := rfl

theorem dropTrailingBlank_eq_rdropWhile (ls : List (List Char)) :
    dropTrailingBlank ls = List.rdropWhile (· = []) ls := rfl

theorem rstripLine_idem (l : List Char) :
    rstripLine (rstripLine l) = rstripLine l := by
  simp [rstripLine_eq_rdropWhile, List.rdropWhile_idempotent]

theorem mem_of_mem_rstripLine {c : Char} {l : List Char} (h : c ∈ rstripLine l) :
    c ∈ l := by
  rw [rstripLine, List.mem_reverse] at h
  have hs := (List.dropWhile_suffix (l := l.reverse) isJsSpaceChar).sublist.subset h
  simpa using hs

theorem rstripLine_getLast_not_space {l : List Char} {c : Char}
    (h : (rstripLine l).getLast? = some c) : isJsSpaceChar c = false := by
  rw [rstripLine_eq_rdropWhile] at h
  have hne : List.rdropWhile isJsSpaceChar l ≠ [] := by
    intro e; rw [e] at h; exact Option.noConfusion h
  have hlast := List.rdropWhile_last_not isJsSpaceChar l hne
  rw [List.getLast?_eq_getLast _ hne] at h
  have hc : (List.rdropWhile isJsSpaceChar l).getLast hne = c := by
    exact Option.some.inj h
  rw [hc] at hlast
  exact eq_false_of_ne_true hlast

theorem splitLinesRN_no_nl (cs : List Char) : ∀ l ∈ splitLinesRN cs, '\n' ∉ l := by
  induction cs using splitLinesRN.induct with
  | case1 => simp [splitLinesRN]
  | case2 rest ih =>
    intro l hl
    rw [splitLinesRN] at hl
    rcases List.mem_cons.mp hl with hl | hl
    · subst hl; simp
    · exact ih l hl
  | case3 rest ih =>
    intro l hl
    rw [splitLinesRN] at hl
    rcases List.mem_cons.mp hl with hl | hl
    · subst hl; simp
    · exact ih l hl
  | case4 c rest h1 h2 ih =>
    intro l hl
    have hc : c ≠ '\n' := fun e => h2 e
    have hcr : c = '\r' → rest.head? ≠ some '\n' := by
      intro e hh
      cases rest with
      | nil => simp at hh
      | cons d t =>
        simp at hh
        exact h1 t e (by rw [hh])
    rw [splitLinesRN_cons c rest hc hcr] at hl
    rcases hsp : splitLinesRN rest with _ | ⟨l0, ls0⟩
    · rw [hsp] at hl
      simp [prependChar] at hl
      subst hl
      simp [hc]
      exact fun e => hc e.symm
    · rw [hsp] at hl
      rcases List.mem_cons.mp hl with hl | hl
      · subst hl
        intro hmem
        rcases List.mem_cons.mp hmem with e | e
        · exact hc e.symm
        · exact ih l0 (hsp ▸ List.mem_cons_self l0 ls0) e
      · exact ih l (by rw [hsp]; exact List.mem_cons_of_mem l0 hl)

theorem splitLinesRN_of_no_nl {cs : List Char} (h : '\n' ∉ cs) : splitLinesRN cs = [cs] := by
  induction cs with
  | nil => rfl
  | cons c rest ih =>
    have hc : c ≠ '\n' := by
      intro e
      exact h (by rw [e]; exact List.mem_cons_self '\n' rest)
    have hrest : '\n' ∉ rest := fun hm => h (List.mem_cons_of_mem c hm)
    have hcr : c = '\r' → rest.head? ≠ some '\n' := by
      intro _ hh
      cases rest with
      | nil => simp at hh
      | cons d t =>
        simp at hh
        exact hrest (by rw [hh]; exact List.mem_cons_self '\n' t)
    rw [splitLinesRN_cons c rest hc hcr, ih hrest]
    rfl

theorem splitLinesRN_append_nl {x : List Char} (t : List Char) (hnl : '\n' ∉ x)
    (hcr : ∀ c, x.getLast? = some c → c ≠ '\r') :
    splitLinesRN (x ++ '\n' :: t) = x :: splitLinesRN t := by
  induction x with
  | nil =>
    rw [List.nil_append]
    rw [show splitLinesRN ('\n' :: t) = [] :: splitLinesRN t from by rw [splitLinesRN]]
  | cons c x' ih =>
    have hc : c ≠ '\n' := by
      intro e
      exact hnl (by rw [e]; exact List.mem_cons_self '\n' x')
    cases x' with
    | nil =>
      have hcne : c ≠ '\r' := hcr c rfl
      have hcr2 : c = '\r' → (('\n' : Char) :: t).head? ≠ some '\n' :=
        fun e => absurd e hcne
      rw [List.cons_append, List.nil_append, splitLinesRN_cons c _ hc hcr2]
      rw [show splitLinesRN ('\n' :: t) = [] :: splitLinesRN t from by rw [splitLinesRN]]
      rfl
    | cons d x'' =>
      have hd : d ≠ '\n' := by
        intro e
        exact hnl (by rw [e]; exact List.mem_cons_of_mem c (List.mem_cons_self '\n' x''))
      have hnl' : '\n' ∉ d :: x'' := fun hm => hnl (List.mem_cons_of_mem c hm)
      have hcr' : ∀ e, (d :: x'').getLast? = some e → e ≠ '\r' := by
        intro e he
        exact hcr e (by rw [List.getLast?_cons_cons]; exact he)
      have hcrh : c = '\r' → ((d :: x'') ++ '\n' :: t).head? ≠ some '\n' := by
        intro _ hh
        simp at hh
        exact hd hh
      rw [List.cons_append, splitLinesRN_cons c _ hc hcrh, ih hnl' hcr']
      rfl

theorem splitLinesRN_joinLF : ∀ ls : List (List Char), ls ≠ [] →
    (∀ l ∈ ls, '\n' ∉ l) → (∀ l ∈ ls, ∀ c, l.getLast? = some c → c ≠ '\r') →
    splitLinesRN (joinLF ls) = ls := by
  intro ls
  induction ls with
  | nil => intro h; exact absurd rfl h
  | cons x rest ih =>
    intro _ hnl hcr
    cases rest with
    | nil =>
      rw [show joinLF [x] = x from rfl]
      rw [splitLinesRN_of_no_nl (hnl x (List.mem_cons_self x []))]
    | cons y rest' =>
      rw [show joinLF (x :: y :: rest') = x ++ '\n' :: joinLF (y :: rest') from rfl]
      rw [splitLinesRN_append_nl _ (hnl x (List.mem_cons_self x _))
        (fun c hc => hcr x (List.mem_cons_self x _) c hc)]
      rw [ih (by simp) (fun l hl => hnl l (List.mem_cons_of_mem x hl))
        (fun l hl => hcr l (List.mem_cons_of_mem x hl))]

theorem mem_of_mem_dropTrailingBlank {l : List Char} {ls : List (List Char)}
    (h : l ∈ dropTrailingBlank ls) : l ∈ ls := by
  rw [dropTrailingBlank, List.mem_reverse] at h
  have hs := (List.dropWhile_suffix (l := ls.reverse) (· = [])).sublist.subset h
  simpa using hs

theorem dropTrailingBlank_getLast_ne_nil {ls : List (List Char)}
    (h : dropTrailingBlank ls ≠ []) : (dropTrailingBlank ls).getLast? ≠ some [] := by
  rw [dropTrailingBlank_eq_rdropWhile] at h ⊢
  have hlast := List.rdropWhile_last_not (· = []) ls h
  intro hsome
  rw [List.getLast?_eq_getLast _ h] at hsome
  have he := Option.some.inj hsome
  rw [he] at hlast
  simp at hlast

theorem dropTrailingBlank_eq_self {ls : List (List Char)}
    (h : ls.getLast? ≠ some []) : dropTrailingBlank ls = ls := by
  rw [dropTrailingBlank_eq_rdropWhile, List.rdropWhile_eq_self_iff]
  intro hne he
  rw [List.getLast?_eq_getLast _ hne] at h
  simp at he
  exact h (by rw [he])

theorem map_rstripLine_of_fixed {L : List (List Char)}
    (h : ∀ l ∈ L, rstripLine l = l) : L.map rstripLine = L := by
  induction L with
  | nil => rfl
  | cons x rest ih =>
    rw [List.map_cons, h x (List.mem_cons_self x rest),
      ih (fun l hl => h l (List.mem_cons_of_mem x hl))]

theorem joinLF_ne_nil {ls : List (List Char)} (hne : ls ≠ [])
    (hlast : ls.getLast? ≠ some []) : joinLF ls ≠ [] := by
  cases ls with
  | nil => exact absurd rfl hne
  | cons x rest =>
    cases rest with
    | nil =>
      rw [show joinLF [x] = x from rfl]
      intro e
      exact hlast (by rw [e]; rfl)
    | cons y r =>
      rw [show joinLF (x :: y :: r) = x ++ '\n' :: joinLF (y :: r) from rfl]
      simp

theorem stringMk_eq_empty_iff (a : List Char) : String.mk a = "" ↔ a = [] := by
  constructor
  · intro h; exact congrArg String.data h
  · intro h; rw [h]

theorem formatClean_idem (x : String) : formatClean (formatClean x) = formatClean x := by
  by_cases hx : x = ""
  · subst hx; rfl
  · have hinner : formatClean x
        = String.mk (joinLF (dropTrailingBlank ((splitLinesRN x.data).map rstripLine))) := by
      rw [formatClean, if_neg hx]
    rw [hinner]
    set L := dropTrailingBlank ((splitLinesRN x.data).map rstripLine) with hLdef
    by_cases hLnil : L = []
    · rw [hLnil]
      rfl
    · have hmem : ∀ l ∈ L, ∃ y, l = rstripLine y := by
        intro l hl
        have hm := mem_of_mem_dropTrailingBlank (hLdef ▸ hl)
        rw [List.mem_map] at hm
        obtain ⟨y, _, he⟩ := hm
        exact ⟨y, he.symm⟩
      have hnl : ∀ l ∈ L, '\n' ∉ l := by
        intro l hl
        have hm := mem_of_mem_dropTrailingBlank (hLdef ▸ hl)
        rw [List.mem_map] at hm
        obtain ⟨y, hy, he⟩ := hm
        intro hmm
        exact splitLinesRN_no_nl x.data y hy (mem_of_mem_rstripLine (he ▸ hmm))
      have hlast : ∀ l ∈ L, ∀ c, l.getLast? = some c → c ≠ '\r' := by
        intro l hl c hc e
        obtain ⟨y, he⟩ := hmem l hl
        have hns := rstripLine_getLast_not_space (he ▸ hc)
        rw [e] at hns
        simp [isJsSpaceChar] at hns
      have hfix : ∀ l ∈ L, rstripLine l = l := by
        intro l hl
        obtain ⟨y, he⟩ := hmem l hl
        rw [he, rstripLine_idem]
      have hLlast : L.getLast? ≠ some [] := by
        rw [hLdef]
        exact dropTrailingBlank_getLast_ne_nil (hLdef ▸ hLnil)
      have hjoin : joinLF L ≠ [] := joinLF_ne_nil hLnil hLlast
      rw [formatClean, if_neg (fun h => hjoin ((stringMk_eq_empty_iff _).mp h))]
      rw [show (String.mk (joinLF L)).data = joinLF L from rfl]
      rw [splitLinesRN_joinLF L hLnil hnl hlast]
      rw [map_rstripLine_of_fixed hfix]
      rw [dropTrailingBlank_eq_self hLlast]

/-- C5: the whitespace-clean formatter is idempotent: for every text x,
`formatClean (formatClean x) = formatClean x`, where `formatClean` splits on
any line-ending style, strips trailing whitespace from each line, drops
trailing empty lines, and rejoins with LF. -/
theorem c5_formatClean_idem (x : String) :
    formatClean (formatClean x) = formatClean x :=
  formatClean_idem x

/-! ## Theorems for C6: delimiter detection -/

/-- C6 counterexample: on the line `"a\tb|c|d|e"` the pipe is strictly the
most frequent non-comma delimiter (3 pipes vs 1 tab, 0 commas), so the claim
as stated requires the pipe to be chosen, yet `detectDelimiter` returns the
tab: the code checks the candidates in the fixed order tab, pipe, semicolon
rather than by frequency. -/
theorem c6_counterexample :
    detectDelimiter "a\tb|c|d|e" = DetectedDelim.tab ∧
    specDetectDelimiter "a\tb|c|d|e" = DetectedDelim.pipe ∧
    countChar '\t' "a\tb|c|d|e" < countChar '|' "a\tb|c|d|e" ∧
    countChar ',' "a\tb|c|d|e" ≤ countChar '|' "a\tb|c|d|e" := by
  decide

/-- C6 (amended): `detectDelimiter` counts occurrences of comma, tab, pipe,
and semicolon in the first line and returns the first delimiter, in the fixed
priority order tab, pipe, semicolon, whose count is positive and meets or
exceeds the comma count; otherwise comma when commas are present; otherwise
the multi-space-run pattern when the line contains a run of two or more
whitespace characters; otherwise comma. -/
theorem c6_amended (line : String) :
    (detectDelimiter line = DetectedDelim.tab ↔
      0 < countChar '\t' line ∧ countChar ',' line ≤ countChar '\t' line) ∧
    (detectDelimiter line = DetectedDelim.pipe ↔
      (0 < countChar '|' line ∧ countChar ',' line ≤ countChar '|' line) ∧
      ¬(0 < countChar '\t' line ∧ countChar ',' line ≤ countChar '\t' line)) ∧
    (detectDelimiter line = DetectedDelim.semi ↔
      (0 < countChar ';' line ∧ countChar ',' line ≤ countChar ';' line) ∧
      ¬(0 < countChar '\t' line ∧ countChar ',' line ≤ countChar '\t' line) ∧
      ¬(0 < countChar '|' line ∧ countChar ',' line ≤ countChar '|' line)) ∧
    (detectDelimiter line = DetectedDelim.multiSpace ↔
      countChar ',' line = 0 ∧ countChar '\t' line = 0 ∧
      countChar '|' line = 0 ∧ countChar ';' line = 0 ∧
      hasMultiSpaceRun line.data = true) ∧
    (detectDelimiter line = DetectedDelim.comma ↔
      (0 < countChar ',' line ∧
        ¬(0 < countChar '\t' line ∧ countChar ',' line ≤ countChar '\t' line) ∧
        ¬(0 < countChar '|' line ∧ countChar ',' line ≤ countChar '|' line) ∧
        ¬(0 < countChar ';' line ∧ countChar ',' line ≤ countChar ';' line)) ∨
      (countChar ',' line = 0 ∧ countChar '\t' line = 0 ∧
        countChar '|' line = 0 ∧ countChar ';' line = 0 ∧
        hasMultiSpaceRun line.data = false)) := by
  simp only [detectDelimiter]
  split_ifs with h1 h2 h3 h4 h5 <;>
    refine ⟨?_, ?_, ?_, ?_, ?_⟩ <;>
    simp_all <;> omega

/-! ## Theorems for C8: single initialization under concurrent first use -/

/-- C8: for every pair of concurrent first-use calls to the python executor
(both issued while the runtime is uninitialized: `pyodide = none`,
`isLoading = false`), exactly one `_loadPyodide` invocation is started (the
load count rises by exactly one across both calls), the second caller awaits
the same in-flight load promise as the first (so a single resolution value is
shared by both), and a load never starts while another load is in flight (a
call entered with `isLoading = true` leaves the load count unchanged).
Resolving the shared promise with `v` makes the runtime `v`. -/
theorem c8_single_load (s0 : PyLoadState) (h1 : s0.pyodide = none)
    (h2 : s0.isLoading = false) :
    ((initPyodideStep (initPyodideStep s0).1).1.loadCount = s0.loadCount + 1 ∧
      (initPyodideStep s0).2 = InitCallResult.awaiting s0.loadCount ∧
      (initPyodideStep (initPyodideStep s0).1).2
        = InitCallResult.awaiting s0.loadCount) ∧
    (∀ s : PyLoadState, s.isLoading = true →
      (initPyodideStep s).1.loadCount = s.loadCount) ∧
    (∀ v : Nat,
      (loadResolveStep (initPyodideStep (initPyodideStep s0).1).1 v).pyodide
        = some v) := by
  refine ⟨?_, ?_, ?_⟩
  · simp [initPyodideStep, h1, h2]
  · intro s hs
    cases hp : s.pyodide <;> simp [initPyodideStep, hp, hs]
  · intro v
    simp [loadResolveStep]

/-- C8 witness: from the fresh executor state, two first-use calls start
exactly one load and the first call awaits promise 0. -/
theorem c8_witness :
    (⟨none, false, none, 0⟩ : PyLoadState).pyodide = none ∧
    ((initPyodideStep (initPyodideStep ⟨none, false, none, 0⟩).1).1.loadCount
      = 0 + 1 ∧
      (initPyodideStep (⟨none, false, none, 0⟩ : PyLoadState)).2
        = InitCallResult.awaiting 0) :=
  ⟨rfl, ((c8_single_load ⟨none, false, none, 0⟩ rfl rfl).1.1),
    ((c8_single_load ⟨none, false, none, 0⟩ rfl rfl).1.2.1)⟩


/-! ## Theorems for C7: totality of the result formatter -/

/-- C7: `formatResult` is total and deterministic: for every embedded value —
including values whose JSON serialization throws (cyclic/non-serializable
objects, bigints), functions, and symbols — it returns a string (it is a pure
Lean function, so determinism is definitional), and the string agrees with
the unprotected serialization wherever that serialization does not throw,
falling back to the bracketed type-name placeholder exactly where it does. -/
theorem c7_formatResult_total (v : JsValue) :
    ∃ s : String, formatResult v = s ∧
      (formatResultRaw v = some s ∨
        (formatResultRaw v = none ∧ s = "[Object " ++ jsCtorName v ++ "]")) := by
  cases v with
  | arr es =>
    cases h : formatObjectTry (.arr es) with
    | some s => exact ⟨s, by simp [formatResult, formatObject, h], by simp [formatResultRaw, h]⟩
    | none =>
      exact ⟨"[Object " ++ jsCtorName (.arr es) ++ "]",
        by simp [formatResult, formatObject, h], by simp [formatResultRaw, h]⟩
  | obj fs =>
    cases h : formatObjectTry (.obj fs) with
    | some s => exact ⟨s, by simp [formatResult, formatObject, h], by simp [formatResultRaw, h]⟩
    | none =>
      exact ⟨"[Object " ++ jsCtorName (.obj fs) ++ "]",
        by simp [formatResult, formatObject, h], by simp [formatResultRaw, h]⟩
  | date iso =>
    cases h : formatObjectTry (.date iso) with
    | some s => exact ⟨s, by simp [formatResult, formatObject, h], by simp [formatResultRaw, h]⟩
    | none =>
      exact ⟨"[Object " ++ jsCtorName (.date iso) ++ "]",
        by simp [formatResult, formatObject, h], by simp [formatResultRaw, h]⟩
  | err m =>
    cases h : formatObjectTry (.err m) with
    | some s => exact ⟨s, by simp [formatResult, formatObject, h], by simp [formatResultRaw, h]⟩
    | none =>
      exact ⟨"[Object " ++ jsCtorName (.err m) ++ "]",
        by simp [formatResult, formatObject, h], by simp [formatResultRaw, h]⟩
  | exoticObj n =>
    cases h : formatObjectTry (.exoticObj n) with
    | some s => exact ⟨s, by simp [formatResult, formatObject, h], by simp [formatResultRaw, h]⟩
    | none =>
      exact ⟨"[Object " ++ jsCtorName (.exoticObj n) ++ "]",
        by simp [formatResult, formatObject, h], by simp [formatResultRaw, h]⟩
  | undef => exact ⟨"undefined", rfl, Or.inl rfl⟩
  | jsNull => exact ⟨"null", rfl, Or.inl rfl⟩
  | func src => exact ⟨formatFunction src, rfl, Or.inl rfl⟩
  | str s => exact ⟨formatString s, rfl, Or.inl rfl⟩
  | num n => exact ⟨formatNumber n, rfl, Or.inl rfl⟩
  | bool b => exact ⟨toString b, rfl, Or.inl rfl⟩
  | bigint i => exact ⟨String.mk (intChars i) ++ "n", rfl, Or.inl rfl⟩
  | sym d => exact ⟨"Symbol(" ++ d ++ ")", rfl, Or.inl rfl⟩


/-! ## Theorems for C1, C2, C3, C9: the execution engine -/

/-- Writing a register makes it readable. -/
theorem getReg_setReg (regs : RegFile) (k v : String) :
    getReg (setReg regs k v) k = some v := by
  induction regs with
  | nil => simp [setReg, getReg]
  | cons kv rest ih =>
    obtain ⟨k', v'⟩ := kv
    by_cases h : k' = k <;> simp [setReg, getReg, h, ih]

/-- A successful `execute` call leaves its formatted result in the results
register. -/
theorem executeCall_success_reg (eng : EngineModel) (lang : Option String)
    (beh : CallBehavior) (regs : RegFile)
    (h : (executeCall eng lang beh regs).2.success = true) :
    getReg (executeCall eng lang beh regs).1 RESULTS_REGISTER
      = some (executeCall eng lang beh regs).2.formattedResult := by
  unfold executeCall at *
  split at h
  · simp [failedOutcome] at h
  · split at h
    · simp [failedOutcome] at h
    · split at h
      · simp [failedOutcome] at h
      · simp [storeResult, getReg_setReg]

/-- A failed `execute` call leaves the register file untouched. -/
theorem executeCall_fail_reg (eng : EngineModel) (lang : Option String)
    (beh : CallBehavior) (regs : RegFile)
    (h : (executeCall eng lang beh regs).2.success = false) :
    (executeCall eng lang beh regs).1 = regs := by
  unfold executeCall at *
  split at h
  · rfl
  · split at h
    · rfl
    · split at h
      · rfl
      · simp at h

/-- C1: over any sequence of `execute` calls, the results register `"r"`
holds the formatted result of the most recently completed successful
execution -- calls in which the executor throws, no executor resolves, or
the store write fails leave the register file unchanged, so the prior good
value is never overwritten by an error string. -/
theorem c1_results_register (eng : EngineModel)
    (calls : List (Option String × CallBehavior)) (regs : RegFile) :
    getReg (runCalls eng calls regs).1 RESULTS_REGISTER =
      (match lastSuccessFmt (runCalls eng calls regs).2 with
        | some f => some f
        | none => getReg regs RESULTS_REGISTER) := by
  induction calls generalizing regs with
  | nil => simp [runCalls, lastSuccessFmt]
  | cons c rest ih =>
    obtain ⟨lang, beh⟩ := c
    simp only [runCalls, lastSuccessFmt]
    have htail := ih (executeCall eng lang beh regs).1
    cases hlast : lastSuccessFmt (runCalls eng rest (executeCall eng lang beh regs).1).2 with
    | some f =>
      rw [hlast] at htail
      simpa [hlast] using htail
    | none =>
      rw [hlast] at htail
      by_cases hs : (executeCall eng lang beh regs).2.success
      · simp only [hlast, hs, if_true]
        rw [htail, executeCall_success_reg eng lang beh regs hs]
      · have hreg := executeCall_fail_reg eng lang beh regs (by simpa using hs)
        simp only [hlast]
        simp only [hreg] at htail ⊢
        simp [hs, htail]

/-- C2: `execute` never raises to its caller (it is a total function into
a pair of register file and outcome); every failed outcome carries an
`error` message `m` and `formattedResult = "Error: " ++ m`; an unresolved
language yields the unsupported-language failure, and a throwing executor
yields a failure carrying exactly the thrown message. -/
theorem c2_execute_total (eng : EngineModel) (lang : Option String)
    (beh : CallBehavior) (regs : RegFile) :
    ((executeCall eng lang beh regs).2.success = false →
      ∃ m, (executeCall eng lang beh regs).2.error = some m ∧
        (executeCall eng lang beh regs).2.formattedResult = "Error: " ++ m) ∧
    (mapGet eng.executors (resolveKey eng lang) = none →
      (executeCall eng lang beh regs).2.success = false ∧
      (executeCall eng lang beh regs).2.error
        = some ("Unsupported language: " ++ unsupportedArg lang)) ∧
    (∀ m ex, beh.execResult = Except.error m →
      mapGet eng.executors (resolveKey eng lang) = some ex →
      (executeCall eng lang beh regs).2.success = false ∧
      (executeCall eng lang beh regs).2.error = some m) := by
  refine ⟨?_, ?_, ?_⟩
  · intro hf
    unfold executeCall at *
    split at hf
    · exact ⟨_, rfl, rfl⟩
    · split at hf
      · exact ⟨_, rfl, rfl⟩
      · split at hf
        · exact ⟨_, rfl, rfl⟩
        · simp at hf
  · intro hnone
    unfold executeCall
    rw [hnone]
    exact ⟨rfl, rfl⟩
  · intro m ex hm hsome
    unfold executeCall
    rw [hsome, hm]
    exact ⟨rfl, rfl⟩

/-- C2 witness: executing with the unregistered language `ruby` on the
constructed engine fails with the unsupported-language error. -/
theorem c2_witness :
    mapGet engineInit.executors (resolveKey engineInit (some "ruby")) = none ∧
    ((executeCall engineInit (some "ruby") ⟨Except.error "boom", none⟩ []).2.success
        = false ∧
      (executeCall engineInit (some "ruby") ⟨Except.error "boom", none⟩ []).2.error
        = some ("Unsupported language: " ++ unsupportedArg (some "ruby"))) :=
  ⟨rfl, (c2_execute_total engineInit (some "ruby") ⟨Except.error "boom", none⟩ []).2.1 rfl⟩

/-- C3 counterexample: in the constructed engine, the registry entry for
`js` is NOT the identical executor object as the entry for `javascript` --
the constructor allocates a fresh instance for each alias registration. -/
theorem c3_counterexample :
    mapGet engineInit.executors "js" ≠ mapGet engineInit.executors "javascript" := by
  decide

/-- C3 (amended): after construction each alias resolves to an executor of
the same executor class as its primary name (`js`/`javascript` both
JavaScript executors, `py`/`python` both Python executors), but to a
distinct instance, not the identical object. -/
theorem c3_amended :
    (∃ j1 j2 : ExecutorInstance,
      mapGet engineInit.executors "javascript" = some j1 ∧
      mapGet engineInit.executors "js" = some j2 ∧
      j1.kind = ExecutorKind.javascript ∧ j2.kind = ExecutorKind.javascript ∧
      j1 ≠ j2) ∧
    (∃ p1 p2 : ExecutorInstance,
      mapGet engineInit.executors "python" = some p1 ∧
      mapGet engineInit.executors "py" = some p2 ∧
      p1.kind = ExecutorKind.python ∧ p2.kind = ExecutorKind.python ∧
      p1 ≠ p2) :=
  ⟨⟨⟨.javascript, 0⟩, ⟨.javascript, 1⟩, by decide, by decide, rfl, rfl, by decide⟩,
    ⟨⟨.python, 2⟩, ⟨.python, 3⟩, by decide, by decide, rfl, rfl, by decide⟩⟩

/-- C9: when the executor succeeds but the Value Store write throws,
`execute` returns a failed outcome carrying the store failure's message and
leaves the registers unchanged; success is returned only when both the
execution and the register write completed. -/
theorem c9_store_failure (eng : EngineModel) (lang : Option String)
    (beh : CallBehavior) (regs : RegFile) :
    (∀ raw m ex, beh.execResult = Except.ok raw → beh.storeFault = some m →
      mapGet eng.executors (resolveKey eng lang) = some ex →
      (executeCall eng lang beh regs).2.success = false ∧
      (executeCall eng lang beh regs).2.error = some m ∧
      (executeCall eng lang beh regs).1 = regs) ∧
    ((executeCall eng lang beh regs).2.success = true →
      beh.storeFault = none ∧ ∃ raw, beh.execResult = Except.ok raw) := by
  constructor
  · intro raw m ex hraw hm hsome
    unfold executeCall
    rw [hsome, hraw, hm]
    exact ⟨rfl, rfl, rfl⟩
  · intro hs
    unfold executeCall at hs
    split at hs
    · simp [failedOutcome] at hs
    · rename_i ex hex
      split at hs
      · simp [failedOutcome] at hs
      · rename_i raw hraw
        split at hs
        · simp [failedOutcome] at hs
        · rename_i hnone
          exact ⟨hnone, raw, hraw⟩

/-- C9 witness: a successful JavaScript execution whose store write throws
`boom` yields a failed outcome carrying `boom` and no register write. -/
theorem c9_witness :
    (executeCall engineInit (some "js")
        ⟨Except.ok (JsValue.str "hi"), some "boom"⟩ []).2.success = false ∧
    (executeCall engineInit (some "js")
        ⟨Except.ok (JsValue.str "hi"), some "boom"⟩ []).2.error = some "boom" ∧
    (executeCall engineInit (some "js")
        ⟨Except.ok (JsValue.str "hi"), some "boom"⟩ []).1 = [] :=
  (c9_store_failure engineInit (some "js")
      ⟨Except.ok (JsValue.str "hi"), some "boom"⟩ []).1
    (JsValue.str "hi") "boom" ⟨.javascript, 1⟩ rfl rfl rfl


/-! ## Theorems: the `formatJSON` round trip (C4)

The chain below follows the structure: evaluation lemmas for the number,
string and whitespace fragments; the mutual render/parse round-trip theorems
`rtv`/`rte`/`rtm`; the parser's no-duplicate-keys invariant; and the
`sortObjectKeys` correctness lemmas (sortedness, invariant preservation, and
deep equality), combined in `c4_formatJSON_round_trip`. -/

theorem digitChar_spec (k : Nat) (h : k < 10) :
    (Char.ofNat ('0'.toNat + k)).toNat = '0'.toNat + k ∧
    (Char.ofNat ('0'.toNat + k)).isDigit = true := by
  interval_cases k <;> exact ⟨by decide, by decide⟩

theorem natChars_step (n : Nat) :
    natChars n = (if n < 10 then [] else natChars (n / 10)) ++
      [Char.ofNat ('0'.toNat + n % 10)] := by
  rw [natChars]
  by_cases h : n < 10 <;> simp [h]

theorem natChars_ne_nil (n : Nat) : natChars n ≠ [] := by
  rw [natChars_step]
  simp

theorem natChars_digits (n : Nat) : ∀ c ∈ natChars n, c.isDigit = true := by
  induction n using Nat.strongRecOn with
  | ind n ih =>
    intro c hc
    rw [natChars_step] at hc
    rw [List.mem_append] at hc
    rcases hc with hc | hc
    · by_cases h : n < 10
      · simp [h] at hc
      · exact ih (n / 10) (Nat.div_lt_self (by omega) (by omega)) c (by simpa [h] using hc)
    · rw [List.mem_singleton] at hc
      subst hc
      exact (digitChar_spec (n % 10) (Nat.mod_lt _ (by omega))).2

theorem digitsToNat_natChars (n : Nat) : digitsToNat (natChars n) = n := by
  induction n using Nat.strongRecOn with
  | ind n ih =>
    rw [natChars_step]
    unfold digitsToNat
    rw [List.foldl_append]
    by_cases h : n < 10
    · simp only [if_pos h, List.foldl_nil, List.foldl_cons]
      rw [(digitChar_spec (n % 10) (Nat.mod_lt _ (by omega))).1]
      omega
    · simp only [if_neg h, List.foldl_cons, List.foldl_nil]
      have := ih (n / 10) (Nat.div_lt_self (by omega) (by omega))
      unfold digitsToNat at this
      rw [this, (digitChar_spec (n % 10) (Nat.mod_lt _ (by omega))).1]
      omega

theorem takeWhile_digits_append (ds rest : List Char)
    (hds : ∀ c ∈ ds, c.isDigit = true) (hrest : headNotDigit rest = true) :
    (ds ++ rest).takeWhile Char.isDigit = ds ∧
    (ds ++ rest).dropWhile Char.isDigit = rest := by
  induction ds with
  | nil =>
    simp only [List.nil_append]
    cases rest with
    | nil => simp
    | cons r t =>
      simp only [headNotDigit, Bool.not_eq_true'] at hrest
      simp [List.takeWhile_cons, List.dropWhile_cons, hrest]
  | cons d ds ih =>
    have hd := hds d (List.mem_cons_self d ds)
    have ⟨h1, h2⟩ := ih (fun c hc => hds c (List.mem_cons_of_mem d hc))
    simp [List.takeWhile_cons, List.dropWhile_cons, hd, h1, h2]

theorem natChars_head_digit (n : Nat) :
    ∃ c t, natChars n = c :: t ∧ c.isDigit = true := by
  cases h : natChars n with
  | nil => exact absurd h (natChars_ne_nil n)
  | cons c t =>
    exact ⟨c, t, rfl, natChars_digits n c (h ▸ List.mem_cons_self c t)⟩

theorem parseJsonNum_inv (i : Int) (rest : List Char)
    (hrest : headNotDigit rest = true) :
    parseJsonNum (intChars i ++ rest) = some (.num i, rest) := by
  by_cases hneg : i < 0
  · have harg : intChars i ++ rest = '-' :: (natChars i.natAbs ++ rest) := by
      simp [intChars, hneg]
    rw [harg]
    unfold parseJsonNum
    have ⟨h1, h2⟩ := takeWhile_digits_append (natChars i.natAbs) rest
      (natChars_digits i.natAbs) hrest
    simp only [h1, h2]
    rw [if_neg (natChars_ne_nil i.natAbs)]
    have : (digitsToNat (natChars i.natAbs) : Int) = (i.natAbs : Int) := by
      rw [digitsToNat_natChars]
    rw [this]
    have : -((i.natAbs : Int)) = i := by omega
    rw [this]
  · obtain ⟨c, t, hct, hcd⟩ := natChars_head_digit i.natAbs
    have hcm : c ≠ '-' := by
      intro e
      subst e
      exact absurd hcd (by decide)
    have harg : intChars i ++ rest = c :: (t ++ rest) := by
      simp [intChars, hneg, hct]
    rw [harg]
    unfold parseJsonNum
    have ⟨h1, h2⟩ := takeWhile_digits_append (natChars i.natAbs) rest
      (natChars_digits i.natAbs) hrest
    rw [hct] at h1 h2
    simp only [List.cons_append] at h1 h2 ⊢
    split
    · rename_i r heq
      rw [List.cons_eq_cons] at heq
      exact absurd heq.1 hcm
    · simp only [h1, h2]
      rw [if_neg (by rw [← hct]; exact natChars_ne_nil i.natAbs)]
      rw [← hct, digitsToNat_natChars]
      have : ((i.natAbs : Int)) = i := by omega
      rw [this]

theorem hexValDigit_hexDigitChar (d : Nat) (h : d < 16) :
    hexValDigit (hexDigitChar d) = some d := by
  interval_cases d <;> decide

theorem parseStringRest_escape (c : Char) (acc rest : List Char) :
    parseStringRest acc (escapeJsonChar c ++ rest) = parseStringRest (c :: acc) rest := by
  unfold escapeJsonChar
  by_cases h1 : c = '"'
  · subst h1; rfl
  · rw [if_neg h1]
    by_cases h2 : c = '\\'
    · subst h2; rfl
    · rw [if_neg h2]
      by_cases h3 : c = '\n'
      · subst h3; rfl
      · rw [if_neg h3]
        by_cases h4 : c = '\r'
        · subst h4; rfl
        · rw [if_neg h4]
          by_cases h5 : c = '\t'
          · subst h5; rfl
          · rw [if_neg h5]
            by_cases h6 : c = '\x08'
            · subst h6; rfl
            · rw [if_neg h6]
              by_cases h7 : c = '\x0c'
              · subst h7; rfl
              · rw [if_neg h7]
                by_cases h8 : c.toNat < 32
                · rw [if_pos h8]
                  show parseStringRest acc ('\\' :: 'u' :: '0' :: '0' ::
                    hexDigitChar (c.toNat / 16) :: hexDigitChar (c.toNat % 16) :: rest)
                    = parseStringRest (c :: acc) rest
                  rw [parseStringRest]
                  rw [show hexValDigit '0' = some 0 from rfl]
                  rw [hexValDigit_hexDigitChar (c.toNat / 16) (by omega),
                    hexValDigit_hexDigitChar (c.toNat % 16) (by omega)]
                  show parseStringRest
                    (Char.ofNat (((0 * 16 + 0) * 16 + c.toNat / 16) * 16 + c.toNat % 16)
                      :: acc) rest = parseStringRest (c :: acc) rest
                  have harith : ((0 * 16 + 0) * 16 + c.toNat / 16) * 16 + c.toNat % 16
                      = c.toNat := by omega
                  rw [harith, Char.ofNat_toNat]
                · rw [if_neg h8]
                  show parseStringRest acc (c :: rest) = parseStringRest (c :: acc) rest
                  rw [parseStringRest.eq_def]
                  split
                  · rename_i heq
                    rw [List.cons_eq_cons] at heq
                    exact absurd heq.1 h1
                  · rename_i a b cc d e f heq
                    rw [List.cons_eq_cons] at heq
                    exact absurd heq.1 h2
                  · rename_i e f heq
                    rw [List.cons_eq_cons] at heq
                    exact absurd heq.1 h2
                  · rename_i c' rest' heq
                    obtain ⟨hc, hr⟩ := List.cons_eq_cons.mp heq
                    subst hc
                    subst hr
                    rw [if_neg h8]
                  · rename_i heq
                    exact absurd heq (by simp)

theorem parseStringRest_flatMap (cs : List Char) : ∀ (acc rest : List Char),
    parseStringRest acc (cs.flatMap escapeJsonChar ++ '"' :: rest)
      = some (String.mk (acc.reverse ++ cs), rest) := by
  induction cs with
  | nil =>
    intro acc rest
    simp [parseStringRest]
  | cons c cs ih =>
    intro acc rest
    rw [List.flatMap_cons, List.append_assoc, parseStringRest_escape, ih]
    simp

theorem parseStringRest_quote (s : String) (rest : List Char) :
    parseStringRest [] (s.data.flatMap escapeJsonChar ++ '"' :: rest)
      = some (s, rest) := by
  rw [parseStringRest_flatMap]
  rfl

theorem skipJsonWs_cons_not {c : Char} (x : List Char) (hc : isJsonWs c = false) :
    skipJsonWs (c :: x) = c :: x := by
  simp [skipJsonWs, List.dropWhile_cons, hc]

theorem skipJsonWs_cons_ws {c : Char} (x : List Char) (hc : isJsonWs c = true) :
    skipJsonWs (c :: x) = skipJsonWs x := by
  simp [skipJsonWs, List.dropWhile_cons, hc]

theorem skipJsonWs_spaces (n : Nat) (x : List Char) :
    skipJsonWs (spacesChars n ++ x) = skipJsonWs x := by
  induction n with
  | zero => rfl
  | succ n ih =>
    rw [show spacesChars (n + 1) = ' ' :: spacesChars n from by
      simp [spacesChars, List.replicate_succ]]
    rw [List.cons_append, skipJsonWs_cons_ws _ (by decide), ih]

theorem digit_props {c : Char} (h : c.isDigit = true) :
    isJsonWs c = false ∧ c ≠ ']' ∧ c ≠ '\x7d' ∧ c ≠ ',' ∧ c ≠ ':' ∧ c ≠ '-' ∧
    c ≠ 'n' ∧ c ≠ 't' ∧ c ≠ 'f' ∧ c ≠ '"' ∧ c ≠ '[' ∧ c ≠ '\x7b' := by
  refine ⟨?_, ?_, ?_, ?_, ?_, ?_, ?_, ?_, ?_, ?_, ?_, ?_⟩
  · by_contra hw
    rw [Bool.not_eq_false] at hw
    simp only [isJsonWs, Bool.or_eq_true, decide_eq_true_eq] at hw
    rcases hw with ((h1 | h1) | h1) | h1 <;> (subst h1; exact absurd h (by decide))
  all_goals (intro e; subst e; exact absurd h (by decide))

theorem renderJson_head (ind : Nat) (v : JsonValue) :
    ∃ c t, renderJson ind v = c :: t ∧ isJsonWs c = false ∧ c ≠ ']' ∧
      c ≠ '\x7d' ∧ c ≠ ',' := by
  cases v with
  | null => exact ⟨'n', _, by rw [renderJson], by decide, by decide, by decide, by decide⟩
  | bool b =>
    cases b with
    | true => exact ⟨'t', _, by rw [renderJson]; rfl, by decide, by decide, by decide, by decide⟩
    | false => exact ⟨'f', _, by rw [renderJson]; rfl, by decide, by decide, by decide, by decide⟩
  | str s => exact ⟨'"', _, by rw [renderJson, quoteChars], by decide, by decide, by decide, by decide⟩
  | num i =>
    by_cases hneg : i < 0
    · refine ⟨'-', natChars i.natAbs, ?_, by decide, by decide, by decide, by decide⟩
      simp [renderJson, intChars, hneg]
    · obtain ⟨c, t, hct, hcd⟩ := natChars_head_digit i.natAbs
      obtain ⟨hw, hbr, hbc, hcm, _, _, _, _, _, _, _, _⟩ := digit_props hcd
      refine ⟨c, t, ?_, hw, hbr, hbc, hcm⟩
      simp [renderJson, intChars, hneg, hct]
  | arr es =>
    cases es with
    | nil => exact ⟨'[', _, by rw [renderJson], by decide, by decide, by decide, by decide⟩
    | cons e es => exact ⟨'[', _, by rw [renderJson], by decide, by decide, by decide, by decide⟩
  | obj fs =>
    cases fs with
    | nil => exact ⟨'\x7b', _, by rw [renderJson], by decide, by decide, by decide, by decide⟩
    | cons kv fs =>
      obtain ⟨k, v⟩ := kv
      exact ⟨'\x7b', _, by rw [renderJson], by decide, by decide, by decide, by decide⟩

theorem skipJsonWs_renderJson (ind : Nat) (v : JsonValue) (x : List Char) :
    skipJsonWs (renderJson ind v ++ x) = renderJson ind v ++ x := by
  obtain ⟨c, t, hct, hw, _, _, _⟩ := renderJson_head ind v
  rw [hct, List.cons_append, skipJsonWs_cons_not _ hw]

theorem skipJsonWs_idem (x : List Char) : skipJsonWs (skipJsonWs x) = skipJsonWs x := by
  simp [skipJsonWs, List.dropWhile_idempotent]

theorem skipJsonWs_nl_spaces (n : Nat) (x : List Char) :
    skipJsonWs ('\n' :: (spacesChars n ++ x)) = skipJsonWs x := by
  rw [skipJsonWs_cons_ws _ (by decide), skipJsonWs_spaces]

theorem parseJsonVal_congr_ws (fuel : Nat) (a b : List Char)
    (h : skipJsonWs a = skipJsonWs b) : parseJsonVal fuel a = parseJsonVal fuel b := by
  cases fuel with
  | zero => simp [parseJsonVal]
  | succ f => rw [parseJsonVal, parseJsonVal, h]

theorem parseJsonElems_congr_ws (fuel : Nat) (a b : List Char)
    (h : skipJsonWs a = skipJsonWs b) :
    parseJsonElems fuel a = parseJsonElems fuel b := by
  cases fuel with
  | zero => simp [parseJsonElems]
  | succ f => rw [parseJsonElems, parseJsonElems, parseJsonVal_congr_ws f a b h]

theorem parseJsonMembers_congr_ws (fuel : Nat) (a b : List Char)
    (h : skipJsonWs a = skipJsonWs b) :
    parseJsonMembers fuel a = parseJsonMembers fuel b := by
  cases fuel with
  | zero => simp [parseJsonMembers]
  | succ f => rw [parseJsonMembers, parseJsonMembers, h]

theorem parseJsonVal_to_num (f : Nat) (c : Char) (t : List Char)
    (hw : isJsonWs c = false) (hn : c ≠ 'n') (ht : c ≠ 't') (hf : c ≠ 'f')
    (hq : c ≠ '"') (hbk : c ≠ '[') (hbc : c ≠ '\x7b') :
    parseJsonVal (f + 1) (c :: t) =
      (if (c = '-' || c.isDigit) = true then parseJsonNum (c :: t) else none) := by
  rw [parseJsonVal]
  rw [skipJsonWs_cons_not t hw]
  split
  · rename_i r heq
    rw [List.cons_eq_cons] at heq
    exact absurd heq.1 hn
  · rename_i r heq
    rw [List.cons_eq_cons] at heq
    exact absurd heq.1 ht
  · rename_i r heq
    rw [List.cons_eq_cons] at heq
    exact absurd heq.1 hf
  · rename_i r heq
    rw [List.cons_eq_cons] at heq
    exact absurd heq.1 hq
  · rename_i r heq
    rw [List.cons_eq_cons] at heq
    exact absurd heq.1 hbk
  · rename_i r heq
    rw [List.cons_eq_cons] at heq
    exact absurd heq.1 hbc
  · rename_i c' r heq
    obtain ⟨hc, hr⟩ := List.cons_eq_cons.mp heq
    subst hc
    subst hr
    by_cases hg : (c = '-' || c.isDigit) = true
    · rw [if_pos hg]
    · rw [if_neg hg]
  · rename_i heq
    exact absurd heq (by simp)

theorem objInsert_fresh (fs : List (String × JsonValue)) (k : String) (v : JsonValue)
    (hk : k ∉ fs.map Prod.fst) : objInsert fs k v = fs ++ [(k, v)] := by
  induction fs with
  | nil => rfl
  | cons kv rest ih =>
    obtain ⟨k', v'⟩ := kv
    simp only [List.map_cons, List.mem_cons, not_or] at hk
    rw [objInsert]
    rw [if_neg (fun e => hk.1 e.symm)]
    rw [ih hk.2]
    rfl

theorem foldl_objInsert_append (ps : List (String × JsonValue)) :
    ∀ acc : List (String × JsonValue),
      (acc.map Prod.fst ++ ps.map Prod.fst).Nodup →
      ps.foldl (fun a kv => objInsert a kv.1 kv.2) acc = acc ++ ps := by
  induction ps with
  | nil =>
    intro acc _
    simp
  | cons kv ps ih =>
    obtain ⟨k, v⟩ := kv
    intro acc h
    simp only [List.foldl_cons]
    have hk : k ∉ acc.map Prod.fst := by
      rcases List.nodup_append.mp h with ⟨_, _, hdisj⟩
      intro hmem
      exact hdisj hmem (by simp)
    rw [objInsert_fresh acc k v hk]
    have h2 : ((acc ++ [(k, v)]).map Prod.fst ++ ps.map Prod.fst).Nodup := by
      simp only [List.map_append, List.map_cons, List.map_nil] at h ⊢
      simpa using h
    rw [ih (acc ++ [(k, v)]) h2]
    simp

theorem buildObj_self (ps : List (String × JsonValue))
    (h : noDupKeysList (ps.map Prod.fst) = true) : buildObj ps = ps := by
  have hn : (ps.map Prod.fst).Nodup := by
    simpa [noDupKeysList] using h
  have := foldl_objInsert_append ps [] (by simpa using hn)
  simpa [buildObj] using this

theorem nodupAll_arr_cons {e : JsonValue} {es : List JsonValue}
    (h : nodupAll (.arr (e :: es)) = true) :
    nodupAll e = true ∧ nodupAllList es = true := by
  rw [nodupAll, nodupAllList] at h
  exact Bool.and_eq_true_iff.mp h

theorem nodupAll_obj_cons {k : String} {v : JsonValue}
    {fs : List (String × JsonValue)}
    (h : nodupAll (.obj ((k, v) :: fs)) = true) :
    noDupKeysList (((k, v) :: fs).map Prod.fst) = true ∧ nodupAll v = true ∧
      nodupAllFields fs = true := by
  rw [nodupAll, nodupAllFields] at h
  rw [Bool.and_eq_true_iff, Bool.and_eq_true_iff] at h
  exact ⟨h.1, h.2.1, h.2.2⟩

theorem parseJsonVal_bracket (f : Nat) (r : List Char) :
    parseJsonVal (f + 1) ('[' :: r) =
      (match skipJsonWs r with
       | ']' :: r2 => some (.arr [], r2)
       | r2 => (parseJsonElems f r2).map (fun p => (.arr p.1, p.2))) := by
  rw [parseJsonVal, skipJsonWs_cons_not _ (by decide)]
  rfl

theorem parseJsonVal_brace (f : Nat) (r : List Char) :
    parseJsonVal (f + 1) ('\x7b' :: r) =
      (match skipJsonWs r with
       | '\x7d' :: r2 => some (.obj [], r2)
       | r2 => (parseJsonMembers f r2).map (fun p => (.obj (buildObj p.1), p.2))) := by
  rw [parseJsonVal, skipJsonWs_cons_not _ (by decide)]
  rfl

theorem parseJsonVal_quote (f : Nat) (r : List Char) :
    parseJsonVal (f + 1) ('"' :: r) =
      (parseStringRest [] r).map (fun p => (.str p.1, p.2)) := by
  rw [parseJsonVal, skipJsonWs_cons_not _ (by decide)]
  rfl

theorem renderArrTail_headNotDigit (ind ind0 : Nat) (es : List JsonValue)
    (rest : List Char) :
    headNotDigit (renderArrTail ind es ++ ('\n' :: (spacesChars ind0 ++ (']' :: rest))))
      = true := by
  cases es with
  | nil => rw [renderArrTail]; rfl
  | cons x xs => rw [renderArrTail]; rfl

theorem renderObjTail_headNotDigit (ind ind0 : Nat) (fs : List (String × JsonValue))
    (rest : List Char) :
    headNotDigit (renderObjTail ind fs ++ ('\n' :: (spacesChars ind0 ++ ('\x7d' :: rest))))
      = true := by
  cases fs with
  | nil => rw [renderObjTail]; rfl
  | cons kv fs => obtain ⟨k, v⟩ := kv; rw [renderObjTail]; rfl

mutual
/-- Round trip, value case: parsing a rendered value (with enough fuel, no
duplicate keys, and a remainder that does not start with a digit) returns
exactly that value and the remainder. -/
theorem rtv : ∀ (v : JsonValue) (ind fuel : Nat) (rest : List Char),
    (renderJson ind v).length < fuel → nodupAll v = true →
    headNotDigit rest = true →
    parseJsonVal fuel (renderJson ind v ++ rest) = some (v, rest)
  | .null, ind, fuel, rest, hfuel, _, _ => by
    cases fuel with
    | zero => rw [renderJson] at hfuel; exact absurd hfuel (by omega)
    | succ f =>
      rw [show renderJson ind .null ++ rest = 'n' :: 'u' :: 'l' :: 'l' :: rest from
        by rw [renderJson]; rfl]
      rw [parseJsonVal, skipJsonWs_cons_not _ (by decide)]
      rfl
  | .bool true, ind, fuel, rest, hfuel, _, _ => by
    cases fuel with
    | zero => rw [renderJson] at hfuel; exact absurd hfuel (by omega)
    | succ f =>
      rw [show renderJson ind (.bool true) ++ rest = 't' :: 'r' :: 'u' :: 'e' :: rest from
        by rw [renderJson]; rfl]
      rw [parseJsonVal, skipJsonWs_cons_not _ (by decide)]
      rfl
  | .bool false, ind, fuel, rest, hfuel, _, _ => by
    cases fuel with
    | zero => rw [renderJson] at hfuel; exact absurd hfuel (by omega)
    | succ f =>
      rw [show renderJson ind (.bool false) ++ rest
          = 'f' :: 'a' :: 'l' :: 's' :: 'e' :: rest from by rw [renderJson]; rfl]
      rw [parseJsonVal, skipJsonWs_cons_not _ (by decide)]
      rfl
  | .num i, ind, fuel, rest, hfuel, _, hrest => by
    cases fuel with
    | zero => exact absurd hfuel (by omega)
    | succ f =>
      rw [show renderJson ind (.num i) = intChars i from by rw [renderJson]] at *
      by_cases hneg : i < 0
      · have harg : intChars i ++ rest = '-' :: (natChars i.natAbs ++ rest) := by
          simp [intChars, hneg]
        rw [harg, parseJsonVal_to_num f '-' _ (by decide) (by decide) (by decide)
          (by decide) (by decide) (by decide) (by decide), ← harg]
        rw [if_pos (by simp)]
        exact parseJsonNum_inv i rest hrest
      · obtain ⟨c, t, hct, hcd⟩ := natChars_head_digit i.natAbs
        obtain ⟨hw, _, _, _, _, hcm, hcn, hctc, hcf, hcq, hcbk, hcbc⟩ := digit_props hcd
        have harg : intChars i ++ rest = c :: (t ++ rest) := by
          simp [intChars, hneg, hct]
        rw [harg, parseJsonVal_to_num f c _ hw hcn hctc hcf hcq hcbk hcbc, ← harg]
        rw [if_pos (by simp [hcd])]
        exact parseJsonNum_inv i rest hrest
  | .str s, ind, fuel, rest, hfuel, _, _ => by
    cases fuel with
    | zero => exact absurd hfuel (by omega)
    | succ f =>
      have harg : renderJson ind (.str s) ++ rest
          = '"' :: (s.data.flatMap escapeJsonChar ++ '"' :: rest) := by
        rw [renderJson, quoteChars]
        simp
      rw [harg, parseJsonVal_quote, parseStringRest_quote]
      rfl
  | .arr [], ind, fuel, rest, hfuel, _, _ => by
    cases fuel with
    | zero => exact absurd hfuel (by omega)
    | succ f =>
      rw [show renderJson ind (.arr []) ++ rest = '[' :: (']' :: rest) from
        by rw [renderJson]; rfl]
      rw [parseJsonVal_bracket, skipJsonWs_cons_not _ (by decide)]
      rfl
  | .arr (e :: es), ind, fuel, rest, hfuel, hnd, _ => by
    cases fuel with
    | zero => exact absurd hfuel (by omega)
    | succ f =>
      obtain ⟨hnde, hndes⟩ := nodupAll_arr_cons hnd
      have harg : renderJson ind (.arr (e :: es)) ++ rest
          = '[' :: ('\n' :: (spacesChars (ind + 4) ++ (renderJson (ind + 4) e ++
            (renderArrTail (ind + 4) es ++ ('\n' :: (spacesChars ind ++ (']' :: rest))))))) := by
        rw [renderJson]
        simp
      have hlen : (renderJson (ind + 4) e).length +
          (renderArrTail (ind + 4) es).length + 1 < f := by
        rw [renderJson] at hfuel
        simp [spacesChars] at hfuel
        omega
      rw [harg, parseJsonVal_bracket]
      rw [show skipJsonWs ('\n' :: (spacesChars (ind + 4) ++ (renderJson (ind + 4) e ++
          (renderArrTail (ind + 4) es ++ ('\n' :: (spacesChars ind ++ (']' :: rest)))))))
          = renderJson (ind + 4) e ++ (renderArrTail (ind + 4) es ++
            ('\n' :: (spacesChars ind ++ (']' :: rest)))) from by
        rw [skipJsonWs_nl_spaces, skipJsonWs_renderJson]]
      obtain ⟨c, t, hct, hw, hbr, hbc, hcm⟩ := renderJson_head (ind + 4) e
      rw [hct, List.cons_append]
      split
      · rename_i r2 heq
        rw [List.cons_eq_cons] at heq
        exact absurd heq.1 hbr
      · rw [← List.cons_append, ← hct]
        rw [rte e es (ind + 4) ind f rest hlen hnde hndes]
        rfl
  | .obj [], ind, fuel, rest, hfuel, _, _ => by
    cases fuel with
    | zero => exact absurd hfuel (by omega)
    | succ f =>
      rw [show renderJson ind (.obj []) ++ rest = '\x7b' :: ('\x7d' :: rest) from
        by rw [renderJson]; rfl]
      rw [parseJsonVal_brace, skipJsonWs_cons_not _ (by decide)]
      rfl
  | .obj ((k, v) :: fs), ind, fuel, rest, hfuel, hnd, _ => by
    cases fuel with
    | zero => exact absurd hfuel (by omega)
    | succ f =>
      obtain ⟨hkeys, hndv, hndfs⟩ := nodupAll_obj_cons hnd
      have harg : renderJson ind (.obj ((k, v) :: fs)) ++ rest
          = '\x7b' :: ('\n' :: (spacesChars (ind + 4) ++ (quoteChars k ++ ':' :: ' ' ::
            (renderJson (ind + 4) v ++ (renderObjTail (ind + 4) fs ++
              ('\n' :: (spacesChars ind ++ ('\x7d' :: rest)))))))) := by
        rw [renderJson]
        simp
      have hlen : (renderJson (ind + 4) v).length +
          (renderObjTail (ind + 4) fs).length + 1 < f := by
        rw [renderJson] at hfuel
        simp [spacesChars, quoteChars] at hfuel
        omega
      rw [harg, parseJsonVal_brace]
      rw [show skipJsonWs ('\n' :: (spacesChars (ind + 4) ++ (quoteChars k ++ ':' :: ' ' ::
          (renderJson (ind + 4) v ++ (renderObjTail (ind + 4) fs ++
            ('\n' :: (spacesChars ind ++ ('\x7d' :: rest))))))))
          = quoteChars k ++ ':' :: ' ' :: (renderJson (ind + 4) v ++
            (renderObjTail (ind + 4) fs ++ ('\n' :: (spacesChars ind ++ ('\x7d' :: rest)))))
          from by
        rw [skipJsonWs_nl_spaces, quoteChars, List.cons_append,
          skipJsonWs_cons_not _ (by decide)]]
      rw [show quoteChars k ++ ':' :: ' ' :: (renderJson (ind + 4) v ++
          (renderObjTail (ind + 4) fs ++ ('\n' :: (spacesChars ind ++ ('\x7d' :: rest)))))
          = '"' :: ((k.data.flatMap escapeJsonChar ++ ['"']) ++ ':' :: ' ' ::
            (renderJson (ind + 4) v ++ (renderObjTail (ind + 4) fs ++
              ('\n' :: (spacesChars ind ++ ('\x7d' :: rest)))))) from by
        rw [quoteChars]
        simp]
      split
      · rename_i r2 heq
        rw [List.cons_eq_cons] at heq
        exact absurd heq.1 (by decide)
      · rw [show ('"' : Char) :: ((k.data.flatMap escapeJsonChar ++ ['"']) ++ ':' :: ' ' ::
            (renderJson (ind + 4) v ++ (renderObjTail (ind + 4) fs ++
              ('\n' :: (spacesChars ind ++ ('\x7d' :: rest))))))
            = quoteChars k ++ ':' :: ' ' :: (renderJson (ind + 4) v ++
              (renderObjTail (ind + 4) fs ++ ('\n' :: (spacesChars ind ++ ('\x7d' :: rest)))))
            from by rw [quoteChars]; simp]
        rw [rtm k v fs (ind + 4) ind f rest hlen hndv hndfs]
        show some (JsonValue.obj (buildObj ((k, v) :: fs)), rest) = _
        rw [buildObj_self ((k, v) :: fs) hkeys]
  termination_by v _ _ _ _ _ _ => sizeOf v

/-- Round trip, array-elements case. -/
theorem rte : ∀ (e : JsonValue) (es : List JsonValue) (ind ind0 fuel : Nat)
    (rest : List Char),
    (renderJson ind e).length + (renderArrTail ind es).length + 1 < fuel →
    nodupAll e = true → nodupAllList es = true →
    parseJsonElems fuel (renderJson ind e ++ (renderArrTail ind es ++
      ('\n' :: (spacesChars ind0 ++ (']' :: rest))))) = some (e :: es, rest)
  | e, es, ind, ind0, fuel, rest, hfuel, hnde, hndes => by
    cases fuel with
    | zero => exact absurd hfuel (by omega)
    | succ f =>
      rw [parseJsonElems]
      rw [rtv e ind f (renderArrTail ind es ++ ('\n' :: (spacesChars ind0 ++ (']' :: rest))))
        (by omega) hnde (renderArrTail_headNotDigit ind ind0 es rest)]
      simp only [Option.bind_eq_bind, Option.some_bind]
      cases es with
      | nil =>
        have h1 : renderArrTail ind ([] : List JsonValue) ++
            ('\n' :: (spacesChars ind0 ++ (']' :: rest)))
            = '\n' :: (spacesChars ind0 ++ (']' :: rest)) := by
          rw [renderArrTail]; simp
        have h2 : skipJsonWs ('\n' :: (spacesChars ind0 ++ (']' :: rest))) = ']' :: rest := by
          rw [skipJsonWs_nl_spaces, skipJsonWs_cons_not _ (by decide)]
        rw [h1, h2]
        rfl
      | cons x xs =>
        obtain ⟨hndx, hndxs⟩ := by
          rw [nodupAllList] at hndes
          exact Bool.and_eq_true_iff.mp hndes
        have hlen2 : (renderJson ind x).length + (renderArrTail ind xs).length + 1 < f := by
          rw [renderArrTail] at hfuel
          simp [spacesChars] at hfuel
          omega
        have h1 : renderArrTail ind (x :: xs) ++ ('\n' :: (spacesChars ind0 ++ (']' :: rest)))
            = ',' :: ('\n' :: (spacesChars ind ++ (renderJson ind x ++
              (renderArrTail ind xs ++ ('\n' :: (spacesChars ind0 ++ (']' :: rest))))))) := by
          rw [renderArrTail]; simp
        have h2 : skipJsonWs (',' :: ('\n' :: (spacesChars ind ++ (renderJson ind x ++
            (renderArrTail ind xs ++ ('\n' :: (spacesChars ind0 ++ (']' :: rest))))))))
            = ',' :: ('\n' :: (spacesChars ind ++ (renderJson ind x ++
              (renderArrTail ind xs ++ ('\n' :: (spacesChars ind0 ++ (']' :: rest))))))) :=
          skipJsonWs_cons_not _ (by decide)
        have h3 : parseJsonElems f ('\n' :: (spacesChars ind ++ (renderJson ind x ++
            (renderArrTail ind xs ++ ('\n' :: (spacesChars ind0 ++ (']' :: rest)))))))
            = some (x :: xs, rest) := by
          rw [parseJsonElems_congr_ws f _ _ (skipJsonWs_nl_spaces ind _)]
          exact rte x xs ind ind0 f rest hlen2 hndx hndxs
        rw [h1, h2]
        simp only [h3, Option.bind_eq_bind, Option.some_bind]
        rfl
  termination_by e es _ _ _ _ _ _ _ => 1 + sizeOf e + sizeOf es

/-- Round trip, object-members case. -/
theorem rtm : ∀ (k : String) (v : JsonValue) (fs : List (String × JsonValue))
    (ind ind0 fuel : Nat) (rest : List Char),
    (renderJson ind v).length + (renderObjTail ind fs).length + 1 < fuel →
    nodupAll v = true → nodupAllFields fs = true →
    parseJsonMembers fuel (quoteChars k ++ ':' :: ' ' :: (renderJson ind v ++
      (renderObjTail ind fs ++ ('\n' :: (spacesChars ind0 ++ ('\x7d' :: rest))))))
      = some ((k, v) :: fs, rest)
  | k, v, [], ind, ind0, fuel, rest, hfuel, hndv, hndfs => by
    cases fuel with
    | zero => exact absurd hfuel (by omega)
    | succ f =>
      have h1 : renderObjTail ind ([] : List (String × JsonValue)) ++
          ('\n' :: (spacesChars ind0 ++ ('\x7d' :: rest)))
          = '\n' :: (spacesChars ind0 ++ ('\x7d' :: rest)) := by
        rw [renderObjTail]; simp
      rw [parseJsonMembers]
      rw [show skipJsonWs (quoteChars k ++ ':' :: ' ' :: (renderJson ind v ++
          (renderObjTail ind ([] : List (String × JsonValue)) ++
            ('\n' :: (spacesChars ind0 ++ ('\x7d' :: rest))))))
          = '"' :: (k.data.flatMap escapeJsonChar ++ '"' :: (':' :: ' ' ::
            (renderJson ind v ++ ('\n' :: (spacesChars ind0 ++ ('\x7d' :: rest)))))) from by
        rw [h1, quoteChars, List.cons_append, skipJsonWs_cons_not _ (by decide)]
        simp]
      have hkey := parseStringRest_quote k (':' :: ' ' :: (renderJson ind v ++
        ('\n' :: (spacesChars ind0 ++ ('\x7d' :: rest)))))
      have hskip1 : skipJsonWs (':' :: ' ' :: (renderJson ind v ++
          ('\n' :: (spacesChars ind0 ++ ('\x7d' :: rest)))))
          = ':' :: (' ' :: (renderJson ind v ++
            ('\n' :: (spacesChars ind0 ++ ('\x7d' :: rest))))) :=
        skipJsonWs_cons_not _ (by decide)
      have hval : parseJsonVal f (' ' :: (renderJson ind v ++
          ('\n' :: (spacesChars ind0 ++ ('\x7d' :: rest)))))
          = some (v, '\n' :: (spacesChars ind0 ++ ('\x7d' :: rest))) := by
        have hc : skipJsonWs (' ' :: (renderJson ind v ++
            ('\n' :: (spacesChars ind0 ++ ('\x7d' :: rest)))))
            = skipJsonWs (renderJson ind v ++
              ('\n' :: (spacesChars ind0 ++ ('\x7d' :: rest)))) :=
          skipJsonWs_cons_ws _ (by decide)
        rw [parseJsonVal_congr_ws f _ _ hc]
        exact rtv v ind f ('\n' :: (spacesChars ind0 ++ ('\x7d' :: rest)))
          (by omega) hndv (by rfl)
      have h2 : skipJsonWs ('\n' :: (spacesChars ind0 ++ ('\x7d' :: rest)))
          = '\x7d' :: rest := by
        rw [skipJsonWs_nl_spaces, skipJsonWs_cons_not _ (by decide)]
      simp only [hkey, Option.bind_eq_bind, Option.some_bind, hskip1, hval, h2]
      rfl
  | k, v, (k2, v2) :: fs', ind, ind0, fuel, rest, hfuel, hndv, hndfs => by
    cases fuel with
    | zero => exact absurd hfuel (by omega)
    | succ f =>
      obtain ⟨hndv2, hndfs2⟩ := by
        rw [nodupAllFields] at hndfs
        exact Bool.and_eq_true_iff.mp hndfs
      have hlen2 : (renderJson ind v2).length + (renderObjTail ind fs').length + 1 < f := by
        rw [renderObjTail] at hfuel
        simp [spacesChars, quoteChars] at hfuel
        omega
      have h1 : renderObjTail ind ((k2, v2) :: fs') ++
          ('\n' :: (spacesChars ind0 ++ ('\x7d' :: rest)))
          = ',' :: ('\n' :: (spacesChars ind ++ (quoteChars k2 ++ ':' :: ' ' ::
            (renderJson ind v2 ++ (renderObjTail ind fs' ++
              ('\n' :: (spacesChars ind0 ++ ('\x7d' :: rest)))))))) := by
        rw [renderObjTail]; simp
      rw [parseJsonMembers]
      rw [show skipJsonWs (quoteChars k ++ ':' :: ' ' :: (renderJson ind v ++
          (renderObjTail ind ((k2, v2) :: fs') ++
            ('\n' :: (spacesChars ind0 ++ ('\x7d' :: rest))))))
          = '"' :: (k.data.flatMap escapeJsonChar ++ '"' :: (':' :: ' ' ::
            (renderJson ind v ++ (',' :: ('\n' :: (spacesChars ind ++ (quoteChars k2 ++
              ':' :: ' ' :: (renderJson ind v2 ++ (renderObjTail ind fs' ++
                ('\n' :: (spacesChars ind0 ++ ('\x7d' :: rest)))))))))))) from by
        rw [h1, quoteChars, List.cons_append, skipJsonWs_cons_not _ (by decide)]
        simp]
      have hkey := parseStringRest_quote k (':' :: ' ' :: (renderJson ind v ++
        (',' :: ('\n' :: (spacesChars ind ++ (quoteChars k2 ++ ':' :: ' ' ::
          (renderJson ind v2 ++ (renderObjTail ind fs' ++
            ('\n' :: (spacesChars ind0 ++ ('\x7d' :: rest)))))))))))
      have hskip1 : skipJsonWs (':' :: ' ' :: (renderJson ind v ++
          (',' :: ('\n' :: (spacesChars ind ++ (quoteChars k2 ++ ':' :: ' ' ::
            (renderJson ind v2 ++ (renderObjTail ind fs' ++
              ('\n' :: (spacesChars ind0 ++ ('\x7d' :: rest))))))))) ))
          = ':' :: (' ' :: (renderJson ind v ++
            (',' :: ('\n' :: (spacesChars ind ++ (quoteChars k2 ++ ':' :: ' ' ::
              (renderJson ind v2 ++ (renderObjTail ind fs' ++
                ('\n' :: (spacesChars ind0 ++ ('\x7d' :: rest))))))))))) :=
        skipJsonWs_cons_not _ (by decide)
      have hval : parseJsonVal f (' ' :: (renderJson ind v ++
          (',' :: ('\n' :: (spacesChars ind ++ (quoteChars k2 ++ ':' :: ' ' ::
            (renderJson ind v2 ++ (renderObjTail ind fs' ++
              ('\n' :: (spacesChars ind0 ++ ('\x7d' :: rest)))))))))))
          = some (v, ',' :: ('\n' :: (spacesChars ind ++ (quoteChars k2 ++ ':' :: ' ' ::
            (renderJson ind v2 ++ (renderObjTail ind fs' ++
              ('\n' :: (spacesChars ind0 ++ ('\x7d' :: rest))))))))) := by
        have hc : skipJsonWs (' ' :: (renderJson ind v ++
            (',' :: ('\n' :: (spacesChars ind ++ (quoteChars k2 ++ ':' :: ' ' ::
              (renderJson ind v2 ++ (renderObjTail ind fs' ++
                ('\n' :: (spacesChars ind0 ++ ('\x7d' :: rest)))))))))))
            = skipJsonWs (renderJson ind v ++
              (',' :: ('\n' :: (spacesChars ind ++ (quoteChars k2 ++ ':' :: ' ' ::
                (renderJson ind v2 ++ (renderObjTail ind fs' ++
                  ('\n' :: (spacesChars ind0 ++ ('\x7d' :: rest)))))))))) :=
          skipJsonWs_cons_ws _ (by decide)
        rw [parseJsonVal_congr_ws f _ _ hc]
        exact rtv v ind f (',' :: ('\n' :: (spacesChars ind ++ (quoteChars k2 ++
          ':' :: ' ' :: (renderJson ind v2 ++ (renderObjTail ind fs' ++
            ('\n' :: (spacesChars ind0 ++ ('\x7d' :: rest)))))))))
          (by omega) hndv (by rfl)
      have h2 : skipJsonWs (',' :: ('\n' :: (spacesChars ind ++ (quoteChars k2 ++
          ':' :: ' ' :: (renderJson ind v2 ++ (renderObjTail ind fs' ++
            ('\n' :: (spacesChars ind0 ++ ('\x7d' :: rest)))))))))
          = ',' :: ('\n' :: (spacesChars ind ++ (quoteChars k2 ++ ':' :: ' ' ::
            (renderJson ind v2 ++ (renderObjTail ind fs' ++
              ('\n' :: (spacesChars ind0 ++ ('\x7d' :: rest)))))))) :=
        skipJsonWs_cons_not _ (by decide)
      have h3 : parseJsonMembers f ('\n' :: (spacesChars ind ++ (quoteChars k2 ++
          ':' :: ' ' :: (renderJson ind v2 ++ (renderObjTail ind fs' ++
            ('\n' :: (spacesChars ind0 ++ ('\x7d' :: rest))))))))
          = some ((k2, v2) :: fs', rest) := by
        rw [parseJsonMembers_congr_ws f _ _ (skipJsonWs_nl_spaces ind _)]
        exact rtm k2 v2 fs' ind ind0 f rest hlen2 hndv2 hndfs2
      simp only [hkey, Option.bind_eq_bind, Option.some_bind, hskip1, hval, h2, h3]
      rfl
  termination_by _ v fs _ _ _ _ _ _ _ => 1 + sizeOf v + sizeOf fs
end

theorem objInsert_mem (fields : List (String × JsonValue)) (k : String) (v : JsonValue) :
    ∀ kv ∈ objInsert fields k v, kv = (k, v) ∨ kv ∈ fields := by
  induction fields with
  | nil => intro kv h; rw [objInsert] at h; simp at h; left; exact h
  | cons hd tl ih =>
    obtain ⟨k', v'⟩ := hd
    intro kv h
    rw [objInsert] at h
    by_cases hk : k' = k
    · rw [if_pos hk] at h
      rcases List.mem_cons.mp h with h1 | h2
      · left; exact h1
      · right; exact List.mem_cons_of_mem _ h2
    · rw [if_neg hk] at h
      rcases List.mem_cons.mp h with h1 | h2
      · right; exact h1 ▸ List.mem_cons_self _ _
      · rcases ih kv h2 with h3 | h4
        · left; exact h3
        · right; exact List.mem_cons_of_mem _ h4

theorem objInsert_keys (fields : List (String × JsonValue)) (k : String) (v : JsonValue) :
    (objInsert fields k v).map Prod.fst =
      if k ∈ fields.map Prod.fst then fields.map Prod.fst
      else fields.map Prod.fst ++ [k] := by
  induction fields with
  | nil => rw [objInsert]; simp
  | cons hd tl ih =>
    obtain ⟨k', v'⟩ := hd
    rw [objInsert]
    by_cases hk : k' = k
    · rw [if_pos hk]
      simp [hk]
    · rw [if_neg hk]
      simp only [List.map_cons]
      rw [ih]
      by_cases hm : k ∈ tl.map Prod.fst
      · rw [if_pos hm, if_pos (by simp [hm])]
      · rw [if_neg hm, if_neg (by simp [hm]; exact Ne.symm hk), List.cons_append]

theorem objInsert_keys_nodup (fields : List (String × JsonValue)) (k : String)
    (v : JsonValue) (h : (fields.map Prod.fst).Nodup) :
    ((objInsert fields k v).map Prod.fst).Nodup := by
  rw [objInsert_keys]
  by_cases hm : k ∈ fields.map Prod.fst
  · rw [if_pos hm]; exact h
  · rw [if_neg hm]
    simp [List.nodup_append, h, hm]

theorem foldl_objInsert_nodup (ps : List (String × JsonValue)) :
    ∀ (acc : List (String × JsonValue)), (acc.map Prod.fst).Nodup →
    ((ps.foldl (fun acc kv => objInsert acc kv.1 kv.2) acc).map Prod.fst).Nodup := by
  induction ps with
  | nil => intro acc h; exact h
  | cons hd tl ih =>
    intro acc h
    rw [List.foldl_cons]
    exact ih _ (objInsert_keys_nodup acc hd.1 hd.2 h)

theorem foldl_objInsert_mem (ps : List (String × JsonValue)) :
    ∀ (acc : List (String × JsonValue)) (kv : String × JsonValue),
    kv ∈ ps.foldl (fun acc kv => objInsert acc kv.1 kv.2) acc → kv ∈ acc ∨ kv ∈ ps := by
  induction ps with
  | nil => intro acc kv h; left; exact h
  | cons hd tl ih =>
    intro acc kv h
    rw [List.foldl_cons] at h
    rcases ih _ kv h with h1 | h2
    · rcases objInsert_mem acc hd.1 hd.2 kv h1 with h3 | h4
      · right; rw [h3]; exact List.mem_cons_self _ _
      · left; exact h4
    · right; exact List.mem_cons_of_mem _ h2

theorem buildObj_keys_nodup (ps : List (String × JsonValue)) :
    noDupKeysList ((buildObj ps).map Prod.fst) = true :=
  decide_eq_true (foldl_objInsert_nodup ps [] (by simp))

theorem buildObj_mem (ps : List (String × JsonValue)) (kv : String × JsonValue)
    (h : kv ∈ buildObj ps) : kv ∈ ps := by
  rcases foldl_objInsert_mem ps [] kv h with h1 | h2
  · exact absurd h1 (List.not_mem_nil kv)
  · exact h2

theorem nodupAllFields_iff (fs : List (String × JsonValue)) :
    nodupAllFields fs = true ↔ ∀ kv ∈ fs, nodupAll kv.2 = true := by
  induction fs with
  | nil => simp [nodupAllFields]
  | cons hd tl ih =>
    obtain ⟨k, v⟩ := hd
    rw [nodupAllFields, Bool.and_eq_true, ih]
    constructor
    · rintro ⟨h1, h2⟩ kv hkv
      rcases List.mem_cons.mp hkv with h3 | h4
      · rw [h3]; exact h1
      · exact h2 kv h4
    · intro h
      exact ⟨h (k, v) (List.mem_cons_self _ _), fun kv hkv => h kv (List.mem_cons_of_mem _ hkv)⟩

theorem parseJsonNum_shape (cs : List Char) (v : JsonValue) (r : List Char)
    (h : parseJsonNum cs = some (v, r)) : ∃ i, v = JsonValue.num i := by
  simp only [parseJsonNum] at h
  split at h
  · split at h
    · exact Option.noConfusion h
    · simp only [Option.some.injEq, Prod.mk.injEq] at h
      exact ⟨_, h.1.symm⟩
  · split at h
    · exact Option.noConfusion h
    · simp only [Option.some.injEq, Prod.mk.injEq] at h
      exact ⟨_, h.1.symm⟩

mutual
/-- Every parsed value satisfies the no-duplicate-keys invariant: the
parser builds objects through `buildObj`, which collapses duplicates. -/
theorem parseJsonVal_nodup : ∀ (fuel : Nat) (cs : List Char) (v : JsonValue) (r : List Char),
    parseJsonVal fuel cs = some (v, r) → nodupAll v = true
  | 0, cs, v, r => by intro h; rw [parseJsonVal] at h; exact Option.noConfusion h
  | fuel + 1, cs, v, r => by
    intro h
    rw [parseJsonVal] at h
    split at h
    · simp only [Option.some.injEq, Prod.mk.injEq] at h
      rw [← h.1]; simp [nodupAll]
    · simp only [Option.some.injEq, Prod.mk.injEq] at h
      rw [← h.1]; simp [nodupAll]
    · simp only [Option.some.injEq, Prod.mk.injEq] at h
      rw [← h.1]; simp [nodupAll]
    · obtain ⟨p, hps, hmap⟩ := Option.map_eq_some'.mp h
      simp only [Prod.mk.injEq] at hmap
      rw [← hmap.1]; simp [nodupAll]
    · split at h
      · simp only [Option.some.injEq, Prod.mk.injEq] at h
        rw [← h.1]; simp [nodupAll, nodupAllList]
      · obtain ⟨p, hpe, hmap⟩ := Option.map_eq_some'.mp h
        simp only [Prod.mk.injEq] at hmap
        rw [← hmap.1, nodupAll]
        exact parseJsonElems_nodup fuel _ p.1 p.2 hpe
    · split at h
      · simp only [Option.some.injEq, Prod.mk.injEq] at h
        rw [← h.1]; simp [nodupAll, noDupKeysList, nodupAllFields, buildObj]
      · obtain ⟨p, hpm, hmap⟩ := Option.map_eq_some'.mp h
        simp only [Prod.mk.injEq] at hmap
        rw [← hmap.1, nodupAll, Bool.and_eq_true]
        refine ⟨buildObj_keys_nodup p.1, ?_⟩
        rw [nodupAllFields_iff]
        intro kv hkv
        exact (nodupAllFields_iff p.1).mp
          (parseJsonMembers_nodup fuel _ p.1 p.2 hpm) kv (buildObj_mem p.1 kv hkv)
    · split at h
      · obtain ⟨i, hi⟩ := parseJsonNum_shape _ _ _ h
        rw [hi]; simp [nodupAll]
      · exact Option.noConfusion h
    · exact Option.noConfusion h
termination_by fuel _ _ _ => fuel

theorem parseJsonElems_nodup : ∀ (fuel : Nat) (cs : List Char) (vs : List JsonValue)
    (r : List Char), parseJsonElems fuel cs = some (vs, r) → nodupAllList vs = true
  | 0, cs, vs, r => by intro h; rw [parseJsonElems] at h; exact Option.noConfusion h
  | fuel + 1, cs, vs, r => by
    intro h
    rw [parseJsonElems] at h
    cases hpv : parseJsonVal fuel cs with
    | none => rw [hpv] at h; exact Option.noConfusion h
    | some p =>
      rw [hpv] at h
      simp only [Option.bind_eq_bind, Option.some_bind] at h
      split at h
      · rename_i r2 hsk2
        cases hpe : parseJsonElems fuel r2 with
        | none => rw [hpe] at h; simp at h
        | some q =>
          rw [hpe] at h
          simp only [Option.bind_eq_bind, Option.some_bind, pure, Option.some.injEq,
            Prod.mk.injEq] at h
          rw [← h.1, nodupAllList, Bool.and_eq_true]
          exact ⟨parseJsonVal_nodup fuel cs p.1 p.2 hpv,
            parseJsonElems_nodup fuel r2 q.1 q.2 hpe⟩
      · rename_i r2 hsk2
        simp only [pure, Option.some.injEq, Prod.mk.injEq] at h
        rw [← h.1, nodupAllList, Bool.and_eq_true]
        exact ⟨parseJsonVal_nodup fuel cs p.1 p.2 hpv, by rw [nodupAllList]⟩
      · exact Option.noConfusion h
termination_by fuel _ _ _ => fuel

theorem parseJsonMembers_nodup : ∀ (fuel : Nat) (cs : List Char)
    (ms : List (String × JsonValue)) (r : List Char),
    parseJsonMembers fuel cs = some (ms, r) → nodupAllFields ms = true
  | 0, cs, ms, r => by intro h; rw [parseJsonMembers] at h; exact Option.noConfusion h
  | fuel + 1, cs, ms, r => by
    intro h
    rw [parseJsonMembers] at h
    split at h
    · rename_i r0 hsk0
      cases hps : parseStringRest [] r0 with
      | none => rw [hps] at h; simp at h
      | some p =>
        rw [hps] at h
        simp only [Option.bind_eq_bind, Option.some_bind] at h
        split at h
        · rename_i r2 hsk2
          cases hpv : parseJsonVal fuel r2 with
          | none => rw [hpv] at h; simp at h
          | some q =>
            rw [hpv] at h
            simp only [Option.bind_eq_bind, Option.some_bind] at h
            split at h
            · rename_i r4 hsk4
              cases hpm : parseJsonMembers fuel r4 with
              | none => rw [hpm] at h; simp at h
              | some w =>
                rw [hpm] at h
                simp only [Option.bind_eq_bind, Option.some_bind, pure, Option.some.injEq,
                  Prod.mk.injEq] at h
                rw [← h.1, nodupAllFields, Bool.and_eq_true]
                exact ⟨parseJsonVal_nodup fuel r2 q.1 q.2 hpv,
                  parseJsonMembers_nodup fuel r4 w.1 w.2 hpm⟩
            · rename_i r4 hsk4
              simp only [pure, Option.some.injEq, Prod.mk.injEq] at h
              rw [← h.1, nodupAllFields, Bool.and_eq_true]
              exact ⟨parseJsonVal_nodup fuel r2 q.1 q.2 hpv, by rw [nodupAllFields]⟩
            · exact Option.noConfusion h
        · exact Option.noConfusion h
    · exact Option.noConfusion h
termination_by fuel _ _ _ => fuel
end

/-- Every `jsonParse` result has pairwise distinct keys in every object. -/
theorem jsonParse_nodup (s : String) (v : JsonValue) (h : jsonParse s = some v) :
    nodupAll v = true := by
  rw [jsonParse] at h
  split at h
  · rename_i pv pr hp
    split at h
    · rw [← Option.some.inj h]
      exact parseJsonVal_nodup (s.data.length + 1) s.data pv pr hp
    · exact Option.noConfusion h
  · exact Option.noConfusion h

theorem sortFieldVals_length (fs : List (String × JsonValue)) :
    (sortFieldVals fs).length = fs.length := by
  induction fs with
  | nil => rw [sortFieldVals]
  | cons hd tl ih =>
    obtain ⟨k, v⟩ := hd
    rw [sortFieldVals, List.length_cons, List.length_cons, ih]

theorem sortFieldVals_keys (fs : List (String × JsonValue)) :
    (sortFieldVals fs).map Prod.fst = fs.map Prod.fst := by
  induction fs with
  | nil => rw [sortFieldVals]
  | cons hd tl ih =>
    obtain ⟨k, v⟩ := hd
    rw [sortFieldVals, List.map_cons, List.map_cons, ih]

theorem sortFieldVals_mem (fs : List (String × JsonValue)) :
    ∀ kv ∈ sortFieldVals fs, ∃ k w, kv = (k, sortObjectKeys w) ∧ (k, w) ∈ fs := by
  induction fs with
  | nil => intro kv h; rw [sortFieldVals] at h; exact absurd h (List.not_mem_nil kv)
  | cons hd tl ih =>
    obtain ⟨k', v'⟩ := hd
    intro kv h
    rw [sortFieldVals] at h
    rcases List.mem_cons.mp h with h1 | h2
    · exact ⟨k', v', h1, List.mem_cons_self _ _⟩
    · obtain ⟨k, w, hkv, hmem⟩ := ih kv h2
      exact ⟨k, w, hkv, List.mem_cons_of_mem _ hmem⟩

theorem keysSortedAllFields_iff (fs : List (String × JsonValue)) :
    keysSortedAllFields fs = true ↔ ∀ kv ∈ fs, keysSortedAll kv.2 = true := by
  induction fs with
  | nil => simp [keysSortedAllFields]
  | cons hd tl ih =>
    obtain ⟨k, v⟩ := hd
    rw [keysSortedAllFields, Bool.and_eq_true, ih]
    constructor
    · rintro ⟨h1, h2⟩ kv hkv
      rcases List.mem_cons.mp hkv with h3 | h4
      · rw [h3]; exact h1
      · exact h2 kv h4
    · intro h
      exact ⟨h (k, v) (List.mem_cons_self _ _), fun kv hkv => h kv (List.mem_cons_of_mem _ hkv)⟩

theorem lookupField_mem_nodup (fs : List (String × JsonValue)) (k : String) (w : JsonValue)
    (hmem : (k, w) ∈ fs) (hnd : (fs.map Prod.fst).Nodup) : lookupField k fs = some w := by
  induction fs with
  | nil => exact absurd hmem (List.not_mem_nil _)
  | cons hd tl ih =>
    obtain ⟨k', v'⟩ := hd
    rw [List.map_cons, List.nodup_cons] at hnd
    rw [lookupField]
    by_cases hk : k' = k
    · rw [if_pos hk]
      rcases List.mem_cons.mp hmem with h1 | h2
      · rw [show w = v' from congrArg Prod.snd h1]
      · exact absurd (List.mem_map_of_mem Prod.fst h2) (by rw [hk] at hnd; exact hnd.1)
    · rw [if_neg hk]
      rcases List.mem_cons.mp hmem with h1 | h2
      · exact absurd (congrArg Prod.fst h1).symm hk
      · exact ih h2 hnd.2

theorem deepEqualFields_of_forall (a b : List (String × JsonValue))
    (h : ∀ kv ∈ a, ∃ w, lookupField kv.1 b = some w ∧ deepEqual kv.2 w = true) :
    deepEqualFields b a = true := by
  induction a with
  | nil => rw [deepEqualFields]
  | cons hd tl ih =>
    obtain ⟨k, v⟩ := hd
    rw [deepEqualFields, Bool.and_eq_true]
    obtain ⟨w, hlk, hde⟩ := h (k, v) (List.mem_cons_self _ _)
    constructor
    · rw [hlk]; exact hde
    · exact ih (fun kv hkv => h kv (List.mem_cons_of_mem _ hkv))

mutual
/-- After `sortObjectKeys`, every object at every depth has ascending
keys. -/
theorem keysSortedAll_sort : ∀ (v : JsonValue), keysSortedAll (sortObjectKeys v) = true
  | .null => by simp [sortObjectKeys, keysSortedAll]
  | .bool b => by simp [sortObjectKeys, keysSortedAll]
  | .num i => by simp [sortObjectKeys, keysSortedAll]
  | .str s => by simp [sortObjectKeys, keysSortedAll]
  | .arr l => by
    rw [sortObjectKeys, keysSortedAll]
    exact keysSortedAllList_sort l
  | .obj fs => by
    rw [sortObjectKeys, keysSortedAll, Bool.and_eq_true]
    constructor
    · rw [keysAscList, decide_eq_true_iff]
      exact List.Pairwise.map Prod.fst (fun a b h => h)
        (List.sorted_insertionSort keyLe (sortFieldVals fs))
    · rw [keysSortedAllFields_iff]
      intro kv hkv
      obtain ⟨k, w, hkv2, hmem⟩ := sortFieldVals_mem fs kv
        ((List.perm_insertionSort keyLe (sortFieldVals fs)).mem_iff.mp hkv)
      rw [hkv2]
      exact keysSortedAll_sortFields fs k w hmem
termination_by v => (sizeOf v, 0)

theorem keysSortedAllList_sort : ∀ (l : List JsonValue),
    keysSortedAllList (sortArrElems l) = true
  | [] => by rw [sortArrElems, keysSortedAllList]
  | v :: vs => by
    rw [sortArrElems, keysSortedAllList, Bool.and_eq_true]
    exact ⟨keysSortedAll_sort v, keysSortedAllList_sort vs⟩
termination_by l => (sizeOf l, 0)

theorem keysSortedAll_sortFields : ∀ (fs : List (String × JsonValue)) (k : String)
    (w : JsonValue), (k, w) ∈ fs → keysSortedAll (sortObjectKeys w) = true
  | (k', v') :: tl, k, w, h => by
    rcases List.mem_cons.mp h with h1 | h2
    · rw [show w = v' from congrArg Prod.snd h1]
      exact keysSortedAll_sort v'
    · exact keysSortedAll_sortFields tl k w h2
termination_by fs _ _ _ => (sizeOf fs, 1)
end

mutual
/-- `sortObjectKeys` preserves the no-duplicate-keys invariant (keys are
only permuted). -/
theorem nodupAll_sort : ∀ (v : JsonValue), nodupAll v = true →
    nodupAll (sortObjectKeys v) = true
  | .null => by intro h; simp [sortObjectKeys, nodupAll]
  | .bool b => by intro h; simp [sortObjectKeys, nodupAll]
  | .num i => by intro h; simp [sortObjectKeys, nodupAll]
  | .str s => by intro h; simp [sortObjectKeys, nodupAll]
  | .arr l => by
    intro h
    rw [nodupAll] at h
    rw [sortObjectKeys, nodupAll]
    exact nodupAllList_sort l h
  | .obj fs => by
    intro h
    rw [nodupAll, Bool.and_eq_true] at h
    rw [sortObjectKeys, nodupAll, Bool.and_eq_true]
    constructor
    · rw [noDupKeysList, decide_eq_true_iff]
      have hperm : List.Perm ((List.insertionSort keyLe (sortFieldVals fs)).map Prod.fst)
          ((sortFieldVals fs).map Prod.fst) :=
        (List.perm_insertionSort keyLe (sortFieldVals fs)).map Prod.fst
      rw [hperm.nodup_iff, sortFieldVals_keys]
      exact of_decide_eq_true h.1
    · rw [nodupAllFields_iff]
      intro kv hkv
      obtain ⟨k, w, hkv2, hmem⟩ := sortFieldVals_mem fs kv
        ((List.perm_insertionSort keyLe (sortFieldVals fs)).mem_iff.mp hkv)
      rw [hkv2]
      exact nodupAll_sortFields fs k w hmem ((nodupAllFields_iff fs).mp h.2 (k, w) hmem)
termination_by v => (sizeOf v, 0)

theorem nodupAllList_sort : ∀ (l : List JsonValue), nodupAllList l = true →
    nodupAllList (sortArrElems l) = true
  | [] => by intro h; rw [sortArrElems]; exact h
  | v :: vs => by
    intro h
    rw [nodupAllList, Bool.and_eq_true] at h
    rw [sortArrElems, nodupAllList, Bool.and_eq_true]
    exact ⟨nodupAll_sort v h.1, nodupAllList_sort vs h.2⟩
termination_by l => (sizeOf l, 0)

theorem nodupAll_sortFields : ∀ (fs : List (String × JsonValue)) (k : String)
    (w : JsonValue), (k, w) ∈ fs → nodupAll w = true → nodupAll (sortObjectKeys w) = true
  | (k', v') :: tl, k, w, h, hnd => by
    rcases List.mem_cons.mp h with h1 | h2
    · rw [show w = v' from congrArg Prod.snd h1] at hnd ⊢
      exact nodupAll_sort v' hnd
    · exact nodupAll_sortFields tl k w h2 hnd
termination_by fs _ _ _ _ => (sizeOf fs, 1)
end

mutual
/-- `sortObjectKeys` returns a value deep-equal to its argument whenever
the argument has no duplicate keys. -/
theorem deepEqual_sort : ∀ (v : JsonValue), nodupAll v = true →
    deepEqual (sortObjectKeys v) v = true
  | .null => by intro h; simp [sortObjectKeys, deepEqual]
  | .bool b => by intro h; simp [sortObjectKeys, deepEqual]
  | .num i => by intro h; simp [sortObjectKeys, deepEqual]
  | .str s => by intro h; simp [sortObjectKeys, deepEqual]
  | .arr l => by
    intro h
    rw [nodupAll] at h
    rw [sortObjectKeys, deepEqual]
    exact deepEqualList_sort l h
  | .obj fs => by
    intro h
    rw [nodupAll, Bool.and_eq_true] at h
    rw [sortObjectKeys, deepEqual, Bool.and_eq_true]
    constructor
    · rw [List.length_insertionSort, sortFieldVals_length]
      simp
    · apply deepEqualFields_of_forall
      intro kv hkv
      obtain ⟨k, w, hkv2, hmem⟩ := sortFieldVals_mem fs kv
        ((List.perm_insertionSort keyLe (sortFieldVals fs)).mem_iff.mp hkv)
      refine ⟨w, ?_, ?_⟩
      · rw [show kv.1 = k from congrArg Prod.fst hkv2]
        exact lookupField_mem_nodup fs k w hmem (of_decide_eq_true h.1)
      · rw [show kv.2 = sortObjectKeys w from congrArg Prod.snd hkv2]
        exact deepEqual_sortFields fs k w hmem ((nodupAllFields_iff fs).mp h.2 (k, w) hmem)
termination_by v => (sizeOf v, 0)

theorem deepEqualList_sort : ∀ (l : List JsonValue), nodupAllList l = true →
    deepEqualList (sortArrElems l) l = true
  | [] => by intro h; rw [sortArrElems, deepEqualList]
  | v :: vs => by
    intro h
    rw [nodupAllList, Bool.and_eq_true] at h
    rw [sortArrElems, deepEqualList, Bool.and_eq_true]
    exact ⟨deepEqual_sort v h.1, deepEqualList_sort vs h.2⟩
termination_by l => (sizeOf l, 0)

theorem deepEqual_sortFields : ∀ (fs : List (String × JsonValue)) (k : String)
    (w : JsonValue), (k, w) ∈ fs → nodupAll w = true →
    deepEqual (sortObjectKeys w) w = true
  | (k', v') :: tl, k, w, h, hnd => by
    rcases List.mem_cons.mp h with h1 | h2
    · rw [show w = v' from congrArg Prod.snd h1] at hnd ⊢
      exact deepEqual_sort v' hnd
    · exact deepEqual_sortFields tl k w h2 hnd
termination_by fs _ _ _ _ => (sizeOf fs, 1)
end

/-- Empty text does not parse. -/
theorem jsonParse_data_nil (s : String) (hd : s.data = []) : jsonParse s = none := by
  rw [jsonParse, hd]
  rw [show parseJsonVal (List.length ([] : List Char) + 1) [] = none from by
    rw [parseJsonVal]; simp [skipJsonWs]]

/-- C4: for every input string whose trimmed text parses as JSON (as the
value `v`), `formatJSON` succeeds; parsing its output text yields a value
`w` deep-equal to `v`; and in `w` — hence in the output text, which is the
4-space-indented serialization of `w` — the keys of every object at every
nesting depth (including objects inside arrays) appear in ascending lexical
order. -/
theorem c4_formatJSON_round_trip (s : String) (v : JsonValue)
    (h : jsonParse (jsTrim s) = some v) :
    ∃ out w, formatJSON s = Except.ok out ∧ jsonParse out = some w ∧
      deepEqual w v = true ∧ keysSortedAll w = true := by
  have hne : ¬((jsTrim s).data = []) := fun hd => by
    rw [jsonParse_data_nil (jsTrim s) hd] at h; exact Option.noConfusion h
  have hndv : nodupAll v = true := jsonParse_nodup _ _ h
  have hndw : nodupAll (sortObjectKeys v) = true := nodupAll_sort v hndv
  refine ⟨String.mk (renderJson 0 (sortObjectKeys v)), sortObjectKeys v, ?_, ?_,
    deepEqual_sort v hndv, keysSortedAll_sort v⟩
  · rw [formatJSON]
    show (if (jsTrim s).data = [] then Except.error "No text to format"
      else match jsonParse (jsTrim s) with
        | some parsed => Except.ok (String.mk (renderJson 0 (sortObjectKeys parsed)))
        | none => Except.error "Invalid JSON: unexpected token")
      = Except.ok (String.mk (renderJson 0 (sortObjectKeys v)))
    rw [if_neg hne, h]
  · rw [jsonParse]
    have hpv : parseJsonVal ((String.mk (renderJson 0 (sortObjectKeys v))).data.length + 1)
        (String.mk (renderJson 0 (sortObjectKeys v))).data
        = some (sortObjectKeys v, []) := by
      show parseJsonVal ((renderJson 0 (sortObjectKeys v)).length + 1)
        (renderJson 0 (sortObjectKeys v)) = some (sortObjectKeys v, [])
      have hr := rtv (sortObjectKeys v) 0 ((renderJson 0 (sortObjectKeys v)).length + 1) []
        (by omega) hndw (by rfl)
      rwa [List.append_nil] at hr
    rw [hpv]
    simp [skipJsonWs]

set_option maxHeartbeats 4000000 in
/-- C4 witness: the concrete object text `\x7b"b":1, "a":2\x7d` parses, and
`formatJSON` on it succeeds with output that parses back to a deep-equal,
everywhere-key-sorted value. -/
theorem c4_witness :
    jsonParse (jsTrim (String.mk ['\x7b', '"', 'b', '"', ':', '1', ',', '"', 'a', '"',
      ':', '2', '\x7d'])) = some (.obj [("b", .num 1), ("a", .num 2)]) ∧
    (∃ out w, formatJSON (String.mk ['\x7b', '"', 'b', '"', ':', '1', ',', '"', 'a', '"',
      ':', '2', '\x7d']) = Except.ok out ∧ jsonParse out = some w ∧
      deepEqual w (.obj [("b", .num 1), ("a", .num 2)]) = true ∧
      keysSortedAll w = true) :=
  ⟨by
    rw [show jsTrim (String.mk ['\x7b', '"', 'b', '"', ':', '1', ',', '"', 'a', '"',
      ':', '2', '\x7d']) = String.mk ['\x7b', '"', 'b', '"', ':', '1', ',', '"', 'a', '"',
      ':', '2', '\x7d'] from by decide]
    simp +decide [jsonParse, parseJsonVal, parseJsonMembers, parseStringRest, skipJsonWs,
      parseJsonNum, digitsToNat, buildObj, objInsert, isJsonWs,
      List.dropWhile, List.takeWhile, List.foldl],
   c4_formatJSON_round_trip _ _ (by
    rw [show jsTrim (String.mk ['\x7b', '"', 'b', '"', ':', '1', ',', '"', 'a', '"',
      ':', '2', '\x7d']) = String.mk ['\x7b', '"', 'b', '"', ':', '1', ',', '"', 'a', '"',
      ':', '2', '\x7d'] from by decide]
    simp +decide [jsonParse, parseJsonVal, parseJsonMembers, parseStringRest, skipJsonWs,
      parseJsonNum, digitsToNat, buildObj, objInsert, isJsonWs,
      List.dropWhile, List.takeWhile, List.foldl])⟩


/-! ## Theorems: `formatText` dispatch (C10) -/

/-- C10: an explicitly requested format type is matched case-insensitively
and echoed verbatim: whenever the requested `formatType` lower-cases to
`"json"`, `"clean"` or `"table"`, `formatText` dispatches to the
corresponding formatter, and the `format` field of the returned result is
the `formatType` string exactly as passed (original casing preserved). -/
theorem c10_formatText_dispatch (text ft : String) :
    (jsToLower ft = "json" →
      formatText text ft = (formatJSON text).map (fun t => FormatTextResult.mk t ft)) ∧
    (jsToLower ft = "clean" →
      formatText text ft = Except.ok (FormatTextResult.mk (formatClean text) ft)) ∧
    (jsToLower ft = "table" →
      formatText text ft = (formatTable text).map (fun t => FormatTextResult.mk t ft)) := by
  refine ⟨fun h => ?_, fun h => ?_, fun h => ?_⟩
  · have hna : ¬(ft = "auto") := fun he => by rw [he] at h; exact absurd h (by decide)
    simp only [formatText]
    rw [if_neg hna, if_pos h]
  · have hna : ¬(ft = "auto") := fun he => by rw [he] at h; exact absurd h (by decide)
    simp only [formatText]
    rw [if_neg hna, if_neg (by rw [h]; decide), if_pos h]
  · have hna : ¬(ft = "auto") := fun he => by rw [he] at h; exact absurd h (by decide)
    simp only [formatText]
    rw [if_neg hna, if_neg (by rw [h]; decide), if_neg (by rw [h]; decide), if_pos h]

/-- C10 witness: the mixed-case request `"JSON"` dispatches to `formatJSON`
and is echoed verbatim. -/
theorem c10_witness :
    jsToLower "JSON" = "json" ∧
    formatText (String.mk ['1']) "JSON"
      = (formatJSON (String.mk ['1'])).map (fun t => FormatTextResult.mk t "JSON") :=
  ⟨by decide, (c10_formatText_dispatch (String.mk ['1']) "JSON").1 (by decide)⟩

end Scratchpad
